import Mathlib

/-!
Verification development for the extent algebra, halo clamping and
halo-exchange planner of the `mpi_array` package.

The Python classes are shallowly embedded: an `IndexingExtent` over `n`
axes becomes a structure with `start`/`stop` vectors `Fin n → ℤ`, halo
matrices become `Fin n → Fin 2 → ℤ` (column 0 = low side, column 1 = high
side), and Python `None` results become `Option`.  Methods are translated
one-for-one from `mpi_array/indexing.py`, `mpi_array/decomposition.py`
and `mpi_array/distribution.py`.
-/

namespace MpiArray

/-- `IndexingExtent` from `mpi_array/indexing.py`: the half-open box
`[start, stop)`; fields `_beg` / `_end` of the Python class. -/
structure IndexingExtent (n : ℕ) where
  start : Fin n → ℤ
  stop : Fin n → ℤ

instance instDecEqIndexingExtent {n : ℕ} : DecidableEq (IndexingExtent n) :=
  fun a b =>
    decidable_of_iff (a.start = b.start ∧ a.stop = b.stop)
      (by cases a; cases b; simp [IndexingExtent.mk.injEq])

theorem IndexingExtent.ext_axes {n : ℕ} {a b : IndexingExtent n}
    (h1 : ∀ i, a.start i = b.start i) (h2 : ∀ i, a.stop i = b.stop i) : a = b := by
  cases a; cases b
  simp only [IndexingExtent.mk.injEq]
  exact ⟨funext h1, funext h2⟩

/-- Vector update `v[a] = x`, the embedding of a numpy element assignment. -/
def updAt {n : ℕ} (f : Fin n → ℤ) (a : Fin n) (v : ℤ) : Fin n → ℤ :=
  fun i => if i = a then v else f i

theorem updAt_same {n : ℕ} (f : Fin n → ℤ) (a : Fin n) (v : ℤ) :
    updAt f a v a = v := by simp [updAt]

theorem updAt_ne {n : ℕ} (f : Fin n → ℤ) (a : Fin n) (v : ℤ) {i : Fin n}
    (h : i ≠ a) : updAt f a v i = f i := by simp [updAt, h]

/-- The index set of an extent: membership of a point in the half-open box. -/
def IndexingExtent.mem {n : ℕ} (self : IndexingExtent n) (x : Fin n → ℤ) : Prop :=
  ∀ i, self.start i ≤ x i ∧ x i < self.stop i

instance {n : ℕ} (self : IndexingExtent n) (x : Fin n → ℤ) :
    Decidable (self.mem x) :=
  inferInstanceAs (Decidable (∀ i, _ ∧ _))

/-- All axes have `start i < stop i` (the data model calls such an extent
non-empty; an extent with `start i = stop i` on some axis is empty). -/
def IndexingExtent.nonempty {n : ℕ} (self : IndexingExtent n) : Prop :=
  ∀ i, self.start i < self.stop i

instance {n : ℕ} (self : IndexingExtent n) : Decidable self.nonempty :=
  inferInstanceAs (Decidable (∀ i, _))

/-- Two extents have no common point. -/
def IndexingExtent.disjointWith {n : ℕ} (self other : IndexingExtent n) : Prop :=
  ∀ x, ¬(self.mem x ∧ other.mem x)

/-- Pointwise (per-axis) equality of extents; equivalent to `=` but its
`Decidable` instance reduces structurally, which `decide` needs. -/
def IndexingExtent.eqv {n : ℕ} (a b : IndexingExtent n) : Prop :=
  ∀ i, a.start i = b.start i ∧ a.stop i = b.stop i

instance {n : ℕ} (a b : IndexingExtent n) : Decidable (a.eqv b) :=
  inferInstanceAs (Decidable (∀ i, _ ∧ _))

theorem IndexingExtent.eqv_iff {n : ℕ} {a b : IndexingExtent n} :
    a.eqv b ↔ a = b := by
  constructor
  · intro h
    exact IndexingExtent.ext_axes (fun i => (h i).1) (fun i => (h i).2)
  · rintro rfl i; exact ⟨rfl, rfl⟩

/-- Pointwise equality lifted to `Option`. -/
def oeqv {n : ℕ} : Option (IndexingExtent n) → Option (IndexingExtent n) → Prop
  | none, none => True
  | some a, some b => a.eqv b
  | _, _ => False

instance instDecOeqv {n : ℕ} :
    (o p : Option (IndexingExtent n)) → Decidable (oeqv o p)
  | none, none => isTrue trivial
  | some a, some b => inferInstanceAs (Decidable (a.eqv b))
  | none, some _ => isFalse id
  | some _, none => isFalse id

theorem oeqv_iff {n : ℕ} {o p : Option (IndexingExtent n)} : oeqv o p ↔ o = p := by
  cases o <;> cases p <;> simp [oeqv, IndexingExtent.eqv_iff]

/-- Pointwise equality lifted to lists of extents. -/
def leqv {n : ℕ} : List (IndexingExtent n) → List (IndexingExtent n) → Prop
  | [], [] => True
  | a :: l, b :: m => a.eqv b ∧ leqv l m
  | _, _ => False

instance instDecLeqv {n : ℕ} :
    (l m : List (IndexingExtent n)) → Decidable (leqv l m)
  | [], [] => isTrue trivial
  | a :: l, b :: m =>
    match inferInstanceAs (Decidable (a.eqv b)), instDecLeqv l m with
    | isTrue h1, isTrue h2 => isTrue ⟨h1, h2⟩
    | isFalse h1, _ => isFalse fun h => h1 h.1
    | _, isFalse h2 => isFalse fun h => h2 h.2
  | [], _ :: _ => isFalse id
  | _ :: _, [] => isFalse id

theorem leqv_iff {n : ℕ} : ∀ {l m : List (IndexingExtent n)}, leqv l m ↔ l = m
  | [], [] => by simp [leqv]
  | a :: l, b :: m => by
    simp [leqv, IndexingExtent.eqv_iff, leqv_iff (l := l) (m := m)]
  | [], _ :: _ => by simp [leqv]
  | _ :: _, [] => by simp [leqv]

/-- `IndexingExtent.calc_intersection` (indexing.py lines 109-128):
componentwise `max` of starts / `min` of stops, `None` when any axis
collapses (`beg >= end`). -/
def IndexingExtent.calc_intersection {n : ℕ} (self other : IndexingExtent n) :
    Option (IndexingExtent n) :=
  let intersection_extent : IndexingExtent n :=
    { start := fun i => max (self.start i) (other.start i)
      stop := fun i => min (self.stop i) (other.stop i) }
  if ∃ i, intersection_extent.stop i ≤ intersection_extent.start i then
    none
  else
    some intersection_extent

/-- `IndexingExtent.split` (indexing.py lines 130-154): cut along axis `a`
at `index`; degenerate cuts return the whole extent on one side and
`None` on the other. -/
def IndexingExtent.split {n : ℕ} (self : IndexingExtent n) (a : Fin n) (index : ℤ) :
    Option (IndexingExtent n) × Option (IndexingExtent n) :=
  if index ≤ self.start a then
    (none, some self)
  else if self.stop a ≤ index then
    (some self, none)
  else
    (some { start := self.start, stop := updAt self.stop a index },
     some { start := updAt self.start a index, stop := self.stop })

/-- One iteration of the axis loop in `calc_intersection_split`
(indexing.py lines 175-185).  The state is the deque `q` (append/pop on
the right) and the accumulated `leftovers`.  A pop from an empty deque
would raise in Python; that branch returns the state unchanged and is
proved unreachable. -/
def cisStep {n : ℕ} (intersection : IndexingExtent n) (a : Fin n)
    (st : List (IndexingExtent n) × List (IndexingExtent n)) :
    List (IndexingExtent n) × List (IndexingExtent n) :=
  match st.1.getLast? with
  | none => st
  | some o =>
    let q := st.1.dropLast
    let leftovers := st.2
    let s1 := o.split a (intersection.start a)
    let leftovers := leftovers ++ s1.1.toList
    match s1.2 with
    | none => (q, leftovers)
    | some hi =>
      let s2 := hi.split a (intersection.stop a)
      (q ++ s2.1.toList, leftovers ++ s2.2.toList)

/-- `IndexingExtent.calc_intersection_split` (indexing.py lines 156-189).
Returns the `(leftovers, intersection)` pair.  Note that when the
intersection is absent the source executes `leftovers.append(other)`,
so the result is `([other], none)`. -/
def IndexingExtent.calc_intersection_split {n : ℕ} (self other : IndexingExtent n) :
    List (IndexingExtent n) × Option (IndexingExtent n) :=
  match self.calc_intersection other with
  | some intersection =>
    (((List.finRange n).foldl (fun st a => cisStep intersection a st) ([self], [])).2,
     some intersection)
  | none => ([other], none)

/-! ### Basic facts about `calc_intersection` -/

theorem calc_intersection_eq_some {n : ℕ} {self other I : IndexingExtent n}
    (h : self.calc_intersection other = some I) :
    (∀ i, I.start i = max (self.start i) (other.start i))
    ∧ (∀ i, I.stop i = min (self.stop i) (other.stop i))
    ∧ I.nonempty := by
  unfold IndexingExtent.calc_intersection at h
  by_cases hc : ∃ i, min (self.stop i) (other.stop i) ≤ max (self.start i) (other.start i)
  · simp only [hc, if_true] at h
    exact absurd h (by simp)
  · simp only [hc, if_false] at h
    obtain rfl := (Option.some.injEq _ _ ▸ h)
    push_neg at hc
    exact ⟨fun _ => rfl, fun _ => rfl, fun i => hc i⟩

theorem calc_intersection_mem {n : ℕ} {self other I : IndexingExtent n}
    (h : self.calc_intersection other = some I) (x : Fin n → ℤ) :
    I.mem x ↔ (self.mem x ∧ other.mem x) := by
  obtain ⟨hs, he, _⟩ := calc_intersection_eq_some h
  constructor
  · intro hm
    refine ⟨fun i => ?_, fun i => ?_⟩ <;>
      · have h1 := (hm i).1
        have h2 := (hm i).2
        rw [hs i] at h1
        rw [he i] at h2
        constructor <;> omega
  · rintro ⟨h1, h2⟩ i
    have a1 := (h1 i).1
    have a2 := (h1 i).2
    have b1 := (h2 i).1
    have b2 := (h2 i).2
    rw [hs i, he i]
    constructor <;> omega

/-! ## Claim C8: self-intersection

`A.calc_intersection(A)` is `A` again only for non-empty `A`; an empty
extent yields `None` because the guard `beg >= end` fires. -/

/-- The 1-D empty extent `[0, 0)`. -/
def emptyExt1 : IndexingExtent 1 :=
  { start := fun _ => 0, stop := fun _ => 0 }

/-- C8 counterexample: for the empty extent `[0, 0)` (allowed by the data
model), `A.calc_intersection(A)` is absent, not an extent equal to `A`. -/
theorem C8_empty_self_intersection_counterexample :
    emptyExt1.calc_intersection emptyExt1 = none := by decide

/-- C8 (amended): for every extent `A` that is non-empty on all axes,
`A.calc_intersection(A)` returns an extent equal to `A`; for an extent
with `beg i = end i` on some axis the result is absent. -/
theorem C8_self_intersection (n : ℕ) (A : IndexingExtent n) (h : A.nonempty) :
    A.calc_intersection A = some A := by
  unfold IndexingExtent.calc_intersection
  rw [if_neg]
  · exact congrArg some (IndexingExtent.ext_axes (fun i => max_self _) (fun i => min_self _))
  · push_neg
    intro i
    simpa using h i

/-- Witness for C8: concrete non-empty input evaluated. -/
theorem C8_self_intersection_witness :
    (IndexingExtent.nonempty { start := fun _ => 2, stop := fun _ => 5 : IndexingExtent 1 })
    ∧ IndexingExtent.calc_intersection
        { start := fun _ => 2, stop := fun _ => 5 }
        { start := fun _ => 2, stop := fun _ => 5 }
      = some { start := fun _ => 2, stop := fun _ => 5 : IndexingExtent 1 } :=
  ⟨by decide, C8_self_intersection 1 _ (by decide)⟩

/-! ## Claim C2: intersection-split with absent intersection

When the intersection is absent the source returns `([other], none)` —
the `else` branch appends the **other** extent, not an empty list. -/

/-- `[0, 1)` in 1-D. -/
def c2self : IndexingExtent 1 :=
  { start := fun _ => 0, stop := fun _ => 1 }

/-- `[2, 3)` in 1-D, disjoint from `c2self`. -/
def c2other : IndexingExtent 1 :=
  { start := fun _ => 2, stop := fun _ => 3 }

/-- C2 counterexample: for the disjoint pair `[0,1)`, `[2,3)` the
intersection is absent but the leftovers list is *not* empty — the
source appends `other` to it. -/
theorem C2_no_overlap_counterexample :
    (c2self.calc_intersection_split c2other).2 = none
    ∧ (c2self.calc_intersection_split c2other).1 ≠ [] := by
  constructor
  · have : oeqv (c2self.calc_intersection_split c2other).2 none := by decide
    exact oeqv_iff.mp this
  · have : leqv (c2self.calc_intersection_split c2other).1 [c2other] := by decide
    rw [leqv_iff.mp this]
    simp

/-- C2 (amended): whenever the intersection of `self` and `other` is
absent, `calc_intersection_split` returns the pair `([other], none)`:
the leftovers list holds the single element `other` (not the empty
list stated by the spec). -/
theorem C2_no_overlap_result {n : ℕ} (self other : IndexingExtent n)
    (h : self.calc_intersection other = none) :
    self.calc_intersection_split other = ([other], none) := by
  unfold IndexingExtent.calc_intersection_split
  rw [h]

/-- Witness for C2: the amended theorem applied at the concrete pair. -/
theorem C2_no_overlap_result_witness :
    c2self.calc_intersection c2other = none
    ∧ c2self.calc_intersection_split c2other = ([c2other], none) :=
  ⟨by decide, C2_no_overlap_result c2self c2other (by decide)⟩

/-! ## Claim C3: intersection-split tiling

Stage-`k` description of the loop state of `calc_intersection_split`:
after processing axes `0 … k-1` the deque holds the single box `cisBox k`
(axes below `k` narrowed to the intersection) and the emitted leftovers
are `cisLeft k`. -/

/-- The single box held by the deque after `k` axis iterations. -/
def cisBox {n : ℕ} (self I : IndexingExtent n) (k : ℕ) : IndexingExtent n :=
  { start := fun i => if i.val < k then I.start i else self.start i
    stop := fun i => if i.val < k then I.stop i else self.stop i }

/-- Low-side leftover emitted at axis `a`. -/
def cisLo {n : ℕ} (self I : IndexingExtent n) (a : Fin n) : IndexingExtent n :=
  { start := (cisBox self I a.val).start
    stop := updAt (cisBox self I a.val).stop a (I.start a) }

/-- High-side leftover emitted at axis `a`. -/
def cisHi {n : ℕ} (self I : IndexingExtent n) (a : Fin n) : IndexingExtent n :=
  { start := updAt (cisBox self I a.val).start a (I.stop a)
    stop := (cisBox self I a.val).stop }

/-- The leftovers emitted while processing axis `a`. -/
def cisEmit {n : ℕ} (self I : IndexingExtent n) (a : Fin n) : List (IndexingExtent n) :=
  (if self.start a < I.start a then [cisLo self I a] else [])
  ++ (if I.stop a < self.stop a then [cisHi self I a] else [])

/-- All leftovers emitted during the first `k` axis iterations. -/
def cisLeft {n : ℕ} (self I : IndexingExtent n) (k : ℕ) : List (IndexingExtent n) :=
  ((List.finRange n).take k).flatMap (cisEmit self I)

theorem getLast?_singleton {α : Type} (a : α) : ([a] : List α).getLast? = some a := rfl

theorem cisStep_singleton {n : ℕ} (I : IndexingExtent n) (a : Fin n)
    (B : IndexingExtent n) (L : List (IndexingExtent n)) :
    cisStep I a ([B], L)
      = (match (B.split a (I.start a)).2 with
         | none => ([], L ++ (B.split a (I.start a)).1.toList)
         | some hi =>
           ((hi.split a (I.stop a)).1.toList,
            L ++ (B.split a (I.start a)).1.toList ++ (hi.split a (I.stop a)).2.toList)) :=
  rfl

theorem split_low {n : ℕ} (E : IndexingExtent n) (a : Fin n) (idx : ℤ)
    (h : idx ≤ E.start a) : E.split a idx = (none, some E) := by
  unfold IndexingExtent.split
  rw [if_pos h]

theorem split_high {n : ℕ} (E : IndexingExtent n) (a : Fin n) (idx : ℤ)
    (h1 : E.start a < idx) (h2 : E.stop a ≤ idx) :
    E.split a idx = (some E, none) := by
  unfold IndexingExtent.split
  rw [if_neg (by omega), if_pos h2]

theorem split_mid {n : ℕ} (E : IndexingExtent n) (a : Fin n) (idx : ℤ)
    (h1 : E.start a < idx) (h2 : idx < E.stop a) :
    E.split a idx
      = (some { start := E.start, stop := updAt E.stop a idx },
         some { start := updAt E.start a idx, stop := E.stop }) := by
  unfold IndexingExtent.split
  rw [if_neg (by omega), if_neg (by omega)]

theorem cisBox_succ_eq {n : ℕ} (self I : IndexingExtent n) (a : Fin n) :
    cisBox self I (a.val + 1)
      = { start := updAt (cisBox self I a.val).start a (I.start a)
          stop := updAt (cisBox self I a.val).stop a (I.stop a) } := by
  refine IndexingExtent.ext_axes (fun i => ?_) (fun i => ?_) <;>
  · rcases eq_or_ne i a with rfl | hia
    · simp [cisBox, updAt]
    · have : i.val ≠ a.val := fun h => hia (Fin.ext h)
      simp only [cisBox, updAt, if_neg hia]
      by_cases hv : i.val < a.val
      · rw [if_pos (by omega), if_pos hv]
      · rw [if_neg (by omega), if_neg hv]

theorem cisStep_box {n : ℕ} (self other I : IndexingExtent n)
    (hI : self.calc_intersection other = some I)
    (a : Fin n) (L : List (IndexingExtent n)) :
    cisStep I a ([cisBox self I a.val], L)
      = ([cisBox self I (a.val + 1)], L ++ cisEmit self I a) := by
  obtain ⟨hs, he, hne⟩ := calc_intersection_eq_some hI
  have hle : ∀ i, self.start i ≤ I.start i := fun i => (hs i) ▸ le_max_left _ _
  have hge : ∀ i, I.stop i ≤ self.stop i := fun i => (he i) ▸ min_le_left _ _
  set B := cisBox self I a.val with hB
  have hBs : B.start a = self.start a := by
    simp [hB, cisBox]
  have hBe : B.stop a = self.stop a := by
    simp [hB, cisBox]
  rw [cisStep_singleton]
  by_cases hlo : self.start a < I.start a
  · -- the low-side split is proper: `cisLo` is emitted
    rw [split_mid B a (I.start a) (by omega) (by have := hne a; have := hge a; omega)]
    dsimp only
    have hhis : (updAt B.start a (I.start a)) a = I.start a := updAt_same _ _ _
    by_cases hhi : I.stop a < self.stop a
    · -- the high-side split is proper: `cisHi` is emitted
      rw [split_mid { start := updAt B.start a (I.start a), stop := B.stop } a (I.stop a)
            (by simpa [hhis] using hne a) (by simpa [hBe] using hhi)]
      dsimp only
      simp only [Option.toList_some, cisEmit, if_pos hlo, if_pos hhi]
      refine Prod.ext ?_ ?_
      · show [_] = [cisBox self I (a.val + 1)]
        rw [cisBox_succ_eq]
      · show L ++ [cisLo self I a] ++ [_] = L ++ ([cisLo self I a] ++ [cisHi self I a])
        rw [← List.append_assoc]
        refine congrArg (fun e => L ++ [cisLo self I a] ++ [e]) ?_
        refine IndexingExtent.ext_axes (fun i => ?_) (fun i => rfl)
        show updAt (updAt B.start a (I.start a)) a (I.stop a) i = (cisHi self I a).start i
        rcases eq_or_ne i a with rfl | hia
        · simp [cisHi, updAt]
        · simp [cisHi, updAt, hia]
    · -- the high-side cut is degenerate: nothing emitted on the high side
      have hstop : self.stop a = I.stop a := by have := hge a; omega
      rw [split_high { start := updAt B.start a (I.start a), stop := B.stop } a (I.stop a)
            (by simpa [hhis] using hne a) (by simpa [hBe] using le_of_eq hstop)]
      dsimp only
      simp only [Option.toList_some, Option.toList_none, cisEmit, if_pos hlo, if_neg hhi]
      refine Prod.ext ?_ ?_
      · show [_] = [cisBox self I (a.val + 1)]
        rw [cisBox_succ_eq]
        refine congrArg (fun e => [e]) (IndexingExtent.ext_axes (fun i => rfl) (fun i => ?_))
        rcases eq_or_ne i a with rfl | hia
        · simp [updAt, hBe, hstop]
        · simp [updAt, hia]
      · have hcisLo : cisLo self I a
            = { start := B.start, stop := updAt B.stop a (I.start a) } := rfl
        simp [hcisLo]
  · -- the low-side cut is degenerate: nothing emitted on the low side
    have hstart : I.start a = self.start a := by have := hle a; omega
    rw [split_low B a (I.start a) (by omega)]
    dsimp only
    have hBsa : B.start a = I.start a := by omega
    by_cases hhi : I.stop a < self.stop a
    · rw [split_mid B a (I.stop a) (by have := hne a; omega) (by omega)]
      simp only [Option.toList_some, Option.toList_none, cisEmit, if_neg hlo, if_pos hhi]
      refine Prod.ext ?_ ?_
      · show [_] = [cisBox self I (a.val + 1)]
        rw [cisBox_succ_eq]
        refine congrArg (fun e => [e]) (IndexingExtent.ext_axes (fun i => ?_) (fun i => rfl))
        rcases eq_or_ne i a with rfl | hia
        · simp [updAt, hBsa]
        · simp [updAt, hia]
      · show L ++ [] ++ [_] = L ++ ([] ++ [cisHi self I a])
        simp only [List.append_nil, List.nil_append]
        refine congrArg (fun e => L ++ [e]) ?_
        refine IndexingExtent.ext_axes (fun i => ?_) (fun i => rfl)
        show updAt B.start a (I.stop a) i = (cisHi self I a).start i
        rfl
    · have hstop : self.stop a = I.stop a := by have := hge a; omega
      rw [split_high B a (I.stop a) (by have := hne a; omega)
            (by rw [hBe, hstop])]
      dsimp only
      simp only [Option.toList_some, Option.toList_none, cisEmit, if_neg hlo, if_neg hhi]
      refine Prod.ext ?_ ?_
      · show [B] = [cisBox self I (a.val + 1)]
        rw [cisBox_succ_eq]
        refine congrArg (fun e => [e])
          (IndexingExtent.ext_axes (fun i => ?_) (fun i => ?_))
        · rcases eq_or_ne i a with rfl | hia
          · simp [updAt, hBsa]
          · simp [updAt, hia]
        · rcases eq_or_ne i a with rfl | hia
          · simp [updAt, hBe, hstop]
          · simp [updAt, hia]
      · simp

theorem cisBox_zero {n : ℕ} (self I : IndexingExtent n) : cisBox self I 0 = self :=
  IndexingExtent.ext_axes (fun i => by simp [cisBox]) (fun i => by simp [cisBox])

theorem cisBox_n {n : ℕ} (self I : IndexingExtent n) : cisBox self I n = I :=
  IndexingExtent.ext_axes (fun i => by simp [cisBox, i.isLt]) (fun i => by simp [cisBox, i.isLt])

theorem cisLeft_zero {n : ℕ} (self I : IndexingExtent n) : cisLeft self I 0 = [] := rfl

theorem cisLeft_succ {n : ℕ} (self I : IndexingExtent n) (k : ℕ) (hk : k < n) :
    cisLeft self I (k + 1) = cisLeft self I k ++ cisEmit self I ⟨k, hk⟩ := by
  unfold cisLeft
  rw [List.take_succ, List.flatMap_append]
  have : (List.finRange n)[k]? = some ⟨k, hk⟩ := by
    rw [List.getElem?_eq_getElem (by simpa using hk)]
    simp [List.getElem_finRange, Fin.cast]
  rw [this]
  simp

theorem cis_fold {n : ℕ} (self other I : IndexingExtent n)
    (hI : self.calc_intersection other = some I) :
    ∀ k, k ≤ n →
      ((List.finRange n).take k).foldl (fun st a => cisStep I a st) ([self], [])
        = ([cisBox self I k], cisLeft self I k)
  | 0, _ => by
    simp [cisBox_zero, cisLeft_zero]
  | k + 1, hk => by
    have hk' : k < n := by omega
    have ih := cis_fold self other I hI k (by omega)
    have hget : (List.finRange n)[k]? = some ⟨k, hk'⟩ := by
      rw [List.getElem?_eq_getElem (by simpa using hk')]
      simp [List.getElem_finRange, Fin.cast]
    rw [List.take_succ, hget, List.foldl_append, ih]
    rw [cisLeft_succ self I k hk']
    simp only [Option.toList_some, List.foldl_cons, List.foldl_nil]
    exact cisStep_box self other I hI ⟨k, hk'⟩ _

/-- The result of `calc_intersection_split` in terms of the stage
description, when the intersection is present. -/
theorem cis_result {n : ℕ} (self other I : IndexingExtent n)
    (hI : self.calc_intersection other = some I) :
    self.calc_intersection_split other = (cisLeft self I n, some I) := by
  unfold IndexingExtent.calc_intersection_split
  rw [hI]
  dsimp only
  have htk : (List.finRange n).take n = List.finRange n :=
    List.take_of_length_le (by simp)
  rw [← htk, cis_fold self other I hI n (le_refl n)]

/-! Membership characterisations of the stage boxes. -/

theorem mem_cisBox_succ {n : ℕ} (self other I : IndexingExtent n)
    (hI : self.calc_intersection other = some I) (a : Fin n) (x : Fin n → ℤ) :
    (cisBox self I (a.val + 1)).mem x
      ↔ ((cisBox self I a.val).mem x ∧ I.start a ≤ x a ∧ x a < I.stop a) := by
  obtain ⟨hs, he, hne⟩ := calc_intersection_eq_some hI
  have hle : ∀ i, self.start i ≤ I.start i := fun i => (hs i) ▸ le_max_left _ _
  have hge : ∀ i, I.stop i ≤ self.stop i := fun i => (he i) ▸ min_le_left _ _
  rw [cisBox_succ_eq]
  dsimp only [IndexingExtent.mem]
  constructor
  · intro h
    have ha := h a
    rw [updAt_same, updAt_same] at ha
    refine ⟨fun i => ?_, ha⟩
    rcases eq_or_ne i a with rfl | hia
    · have h1 := hle i
      have h2 := hge i
      have h3 : (cisBox self I i.val).start i = self.start i := by simp [cisBox]
      have h4 : (cisBox self I i.val).stop i = self.stop i := by simp [cisBox]
      rw [h3, h4]
      omega
    · have := h i
      rwa [updAt_ne _ _ _ hia, updAt_ne _ _ _ hia] at this
  · rintro ⟨h, ha1, ha2⟩ i
    rcases eq_or_ne i a with rfl | hia
    · rw [updAt_same, updAt_same]
      exact ⟨ha1, ha2⟩
    · rw [updAt_ne _ _ _ hia, updAt_ne _ _ _ hia]
      exact h i

theorem mem_cisLo {n : ℕ} (self other I : IndexingExtent n)
    (hI : self.calc_intersection other = some I) (a : Fin n) (x : Fin n → ℤ) :
    (cisLo self I a).mem x
      ↔ ((cisBox self I a.val).mem x ∧ x a < I.start a) := by
  obtain ⟨hs, he, hne⟩ := calc_intersection_eq_some hI
  have hge : ∀ i, I.stop i ≤ self.stop i := fun i => (he i) ▸ min_le_left _ _
  dsimp only [cisLo, IndexingExtent.mem]
  constructor
  · intro h
    have ha := (h a).2
    rw [updAt_same] at ha
    refine ⟨fun i => ?_, ha⟩
    rcases eq_or_ne i a with rfl | hia
    · have h4 : (cisBox self I i.val).stop i = self.stop i := by simp [cisBox]
      have h5 : (cisBox self I i.val).start i ≤ x i := (h i).1
      have h6 := hne i
      have h7 := hge i
      exact ⟨h5, by rw [h4]; omega⟩
    · have := h i
      rwa [updAt_ne _ _ _ hia] at this
  · rintro ⟨h, ha⟩ i
    rcases eq_or_ne i a with rfl | hia
    · rw [updAt_same]
      exact ⟨(h i).1, ha⟩
    · rw [updAt_ne _ _ _ hia]
      exact h i

theorem mem_cisHi {n : ℕ} (self other I : IndexingExtent n)
    (hI : self.calc_intersection other = some I) (a : Fin n) (x : Fin n → ℤ) :
    (cisHi self I a).mem x
      ↔ ((cisBox self I a.val).mem x ∧ I.stop a ≤ x a) := by
  obtain ⟨hs, he, hne⟩ := calc_intersection_eq_some hI
  have hle : ∀ i, self.start i ≤ I.start i := fun i => (hs i) ▸ le_max_left _ _
  dsimp only [cisHi, IndexingExtent.mem]
  constructor
  · intro h
    have ha := (h a).1
    rw [updAt_same] at ha
    refine ⟨fun i => ?_, ha⟩
    rcases eq_or_ne i a with rfl | hia
    · have h3 : (cisBox self I i.val).start i = self.start i := by simp [cisBox]
      have h5 := (h i).2
      have h6 := hne i
      have h7 := hle i
      rw [h3]
      exact ⟨by omega, h5⟩
    · have := h i
      rwa [updAt_ne _ _ _ hia] at this
  · rintro ⟨h, ha⟩ i
    rcases eq_or_ne i a with rfl | hia
    · rw [updAt_same]
      exact ⟨ha, (h i).2⟩
    · rw [updAt_ne _ _ _ hia]
      exact h i

theorem box_decomp {n : ℕ} (self other I : IndexingExtent n)
    (hI : self.calc_intersection other = some I) (a : Fin n) (x : Fin n → ℤ) :
    (cisBox self I a.val).mem x
      ↔ ((cisLo self I a).mem x ∨ (cisBox self I (a.val + 1)).mem x
          ∨ (cisHi self I a).mem x) := by
  rw [mem_cisLo self other I hI, mem_cisBox_succ self other I hI,
    mem_cisHi self other I hI]
  constructor
  · intro h
    by_cases h1 : x a < I.start a
    · exact Or.inl ⟨h, h1⟩
    · by_cases h2 : I.stop a ≤ x a
      · exact Or.inr (Or.inr ⟨h, h2⟩)
      · exact Or.inr (Or.inl ⟨h, by omega, by omega⟩)
  · rintro (⟨h, _⟩ | ⟨h, _, _⟩ | ⟨h, _⟩) <;> exact h

theorem mem_of_emit {n : ℕ} (self other I : IndexingExtent n)
    (hI : self.calc_intersection other = some I) (a : Fin n)
    {L : IndexingExtent n} (hL : L ∈ cisEmit self I a) (x : Fin n → ℤ)
    (hm : L.mem x) : (cisBox self I a.val).mem x := by
  unfold cisEmit at hL
  rcases List.mem_append.mp hL with h | h
  · by_cases c1 : self.start a < I.start a
    · rw [if_pos c1, List.mem_singleton] at h
      subst h
      exact ((mem_cisLo self other I hI a x).mp hm).1
    · rw [if_neg c1] at h
      exact absurd h (List.not_mem_nil L)
  · by_cases c2 : I.stop a < self.stop a
    · rw [if_pos c2, List.mem_singleton] at h
      subst h
      exact ((mem_cisHi self other I hI a x).mp hm).1
    · rw [if_neg c2] at h
      exact absurd h (List.not_mem_nil L)

theorem mem_emit_iff {n : ℕ} (self other I : IndexingExtent n)
    (hI : self.calc_intersection other = some I) (a : Fin n) (x : Fin n → ℤ) :
    (∃ L ∈ cisEmit self I a, L.mem x)
      ↔ ((cisLo self I a).mem x ∨ (cisHi self I a).mem x) := by
  constructor
  · rintro ⟨L, hL, hm⟩
    unfold cisEmit at hL
    rcases List.mem_append.mp hL with h | h
    · by_cases c1 : self.start a < I.start a
      · rw [if_pos c1, List.mem_singleton] at h
        subst h
        exact Or.inl hm
      · rw [if_neg c1] at h
        exact absurd h (List.not_mem_nil L)
    · by_cases c2 : I.stop a < self.stop a
      · rw [if_pos c2, List.mem_singleton] at h
        subst h
        exact Or.inr hm
      · rw [if_neg c2] at h
        exact absurd h (List.not_mem_nil L)
  · rintro (hm | hm)
    · have hx := (mem_cisLo self other I hI a x).mp hm
      have hself : self.start a ≤ x a := by
        have h3 : (cisBox self I a.val).start a = self.start a := by simp [cisBox]
        have := (hx.1 a).1
        rwa [h3] at this
      have c1 : self.start a < I.start a := by have := hx.2; omega
      exact ⟨cisLo self I a, by simp [cisEmit, if_pos c1], hm⟩
    · have hx := (mem_cisHi self other I hI a x).mp hm
      have hself : x a < self.stop a := by
        have h4 : (cisBox self I a.val).stop a = self.stop a := by simp [cisBox]
        have := (hx.1 a).2
        rwa [h4] at this
      have c2 : I.stop a < self.stop a := by have := hx.2; omega
      refine ⟨cisHi self I a, ?_, hm⟩
      unfold cisEmit
      rw [if_pos c2]
      exact List.mem_append_right _ (List.mem_singleton.mpr rfl)

set_option maxHeartbeats 1000000 in
theorem union_inv {n : ℕ} (self other I : IndexingExtent n)
    (hI : self.calc_intersection other = some I) :
    ∀ k, k ≤ n → ∀ x, self.mem x
      ↔ ((cisBox self I k).mem x ∨ ∃ L ∈ cisLeft self I k, L.mem x)
  | 0, _ => by
    intro x
    simp [cisBox_zero, cisLeft_zero]
  | k + 1, hk => by
    intro x
    have hk' : k < n := by omega
    have ih := union_inv self other I hI k (by omega) x
    rw [cisLeft_succ self I k hk']
    have hsplit : (∃ L ∈ cisLeft self I k ++ cisEmit self I ⟨k, hk'⟩, L.mem x)
        ↔ ((∃ L ∈ cisLeft self I k, L.mem x)
            ∨ ∃ L ∈ cisEmit self I ⟨k, hk'⟩, L.mem x) := by
      constructor
      · rintro ⟨L, hL, hm⟩
        rcases List.mem_append.mp hL with h | h
        · exact Or.inl ⟨L, h, hm⟩
        · exact Or.inr ⟨L, h, hm⟩
      · rintro (⟨L, hL, hm⟩ | ⟨L, hL, hm⟩)
        · exact ⟨L, List.mem_append_left _ hL, hm⟩
        · exact ⟨L, List.mem_append_right _ hL, hm⟩
    rw [hsplit, mem_emit_iff self other I hI ⟨k, hk'⟩ x, ih,
      box_decomp self other I hI ⟨k, hk'⟩ x]
    constructor
    · rintro ((h | h | h) | h)
      · exact Or.inr (Or.inr (Or.inl h))
      · exact Or.inl h
      · exact Or.inr (Or.inr (Or.inr h))
      · exact Or.inr (Or.inl h)
    · rintro (h | h | h | h)
      · exact Or.inl (Or.inr (Or.inl h))
      · exact Or.inr h
      · exact Or.inl (Or.inl h)
      · exact Or.inl (Or.inr (Or.inr h))

theorem disj_lo_hi {n : ℕ} (self other I : IndexingExtent n)
    (hI : self.calc_intersection other = some I) (a : Fin n) :
    (cisLo self I a).disjointWith (cisHi self I a) := by
  obtain ⟨_, _, hne⟩ := calc_intersection_eq_some hI
  intro x ⟨h1, h2⟩
  have a1 := ((mem_cisLo self other I hI a x).mp h1).2
  have a2 := ((mem_cisHi self other I hI a x).mp h2).2
  have := hne a
  omega

theorem disj_lo_box {n : ℕ} (self other I : IndexingExtent n)
    (hI : self.calc_intersection other = some I) (a : Fin n) :
    (cisLo self I a).disjointWith (cisBox self I (a.val + 1)) := by
  intro x ⟨h1, h2⟩
  have a1 := ((mem_cisLo self other I hI a x).mp h1).2
  have a2 := ((mem_cisBox_succ self other I hI a x).mp h2).2.1
  omega

theorem disj_hi_box {n : ℕ} (self other I : IndexingExtent n)
    (hI : self.calc_intersection other = some I) (a : Fin n) :
    (cisHi self I a).disjointWith (cisBox self I (a.val + 1)) := by
  intro x ⟨h1, h2⟩
  have a1 := ((mem_cisHi self other I hI a x).mp h1).2
  have a2 := ((mem_cisBox_succ self other I hI a x).mp h2).2.2
  omega

theorem disjointWith_symm {n : ℕ} {A B : IndexingExtent n}
    (h : A.disjointWith B) : B.disjointWith A :=
  fun x hx => h x ⟨hx.2, hx.1⟩

theorem pairwise_inv {n : ℕ} (self other I : IndexingExtent n)
    (hI : self.calc_intersection other = some I) :
    ∀ k, k ≤ n →
      List.Pairwise IndexingExtent.disjointWith
        (cisLeft self I k ++ [cisBox self I k])
  | 0, _ => by
    simp [cisLeft_zero]
  | k + 1, hk => by
    have hk' : k < n := by omega
    have ih := pairwise_inv self other I hI k (by omega)
    rw [List.pairwise_append] at ih
    obtain ⟨ihL, _, ihX⟩ := ih
    have ihB : ∀ P ∈ cisLeft self I k, P.disjointWith (cisBox self I k) :=
      fun P hP => ihX P hP _ (List.mem_singleton.mpr rfl)
    set a : Fin n := ⟨k, hk'⟩ with ha
    rw [cisLeft_succ self I k hk', List.pairwise_append]
    have hsubEmit : ∀ Q ∈ cisEmit self I a, ∀ x, Q.mem x → (cisBox self I k).mem x :=
      fun Q hQ x hm => mem_of_emit self other I hI a hQ x hm
    have hsubBox : ∀ x, (cisBox self I (k + 1)).mem x → (cisBox self I k).mem x :=
      fun x hm => ((mem_cisBox_succ self other I hI a x).mp hm).1
    refine ⟨?_, ?_, ?_⟩
    · -- leftovers so far together with the new emissions
      rw [List.pairwise_append]
      refine ⟨ihL, ?_, ?_⟩
      · -- the new emissions are mutually disjoint (low before high)
        unfold cisEmit
        by_cases c1 : self.start a < I.start a <;> by_cases c2 : I.stop a < self.stop a <;>
          simp [c1, c2, disj_lo_hi self other I hI a]
      · -- old leftovers are disjoint from the new emissions
        intro P hP Q hQ x hx
        exact ihB P hP x ⟨hx.1, hsubEmit Q hQ x hx.2⟩
    · simp
    · -- everything is disjoint from the new deque box
      intro P hP B hB x hx
      rw [List.mem_singleton] at hB
      subst hB
      rcases List.mem_append.mp hP with h | h
      · exact ihB P h x ⟨hx.1, hsubBox x hx.2⟩
      · -- the new emissions are disjoint from the new box on axis `a`
        unfold cisEmit at h
        rcases List.mem_append.mp h with h2 | h2
        · by_cases c1 : self.start a < I.start a
          · rw [if_pos c1, List.mem_singleton] at h2
            subst h2
            exact disj_lo_box self other I hI a x hx
          · rw [if_neg c1] at h2
            exact absurd h2 (List.not_mem_nil P)
        · by_cases c2 : I.stop a < self.stop a
          · rw [if_pos c2, List.mem_singleton] at h2
            subst h2
            exact disj_hi_box self other I hI a x hx
          · rw [if_neg c2] at h2
            exact absurd h2 (List.not_mem_nil P)

/-- Helper for concrete 2-D extents. -/
def extent2 (a0 b0 a1 b1 : ℤ) : IndexingExtent 2 :=
  { start := ![a0, a1], stop := ![b0, b1] }

/-- C3: when the intersection `I` of non-empty extents `self` and `other`
is present, `calc_intersection_split` produces leftovers that are
pairwise disjoint, each disjoint from `I`, and that tile `self` together
with `I`; on the concrete input `[0,10)×[0,10)` vs `[3,7)×[2,8)` the
leftovers are exactly `[0,3)×[0,10)`, `[7,10)×[0,10)`, `[3,7)×[0,2)`,
`[3,7)×[8,10)` in that order, with intersection `[3,7)×[2,8)`. -/
theorem C3_intersection_split_tiling {n : ℕ} (self other I : IndexingExtent n)
    (hself : self.nonempty) (hother : other.nonempty)
    (hI : self.calc_intersection other = some I) :
    (List.Pairwise IndexingExtent.disjointWith (self.calc_intersection_split other).1
      ∧ (∀ L ∈ (self.calc_intersection_split other).1, L.disjointWith I)
      ∧ (∀ x, self.mem x
          ↔ (I.mem x ∨ ∃ L ∈ (self.calc_intersection_split other).1, L.mem x))
      ∧ (self.calc_intersection_split other).2 = some I)
    ∧ (extent2 0 10 0 10).calc_intersection_split (extent2 3 7 2 8)
        = ([extent2 0 3 0 10, extent2 7 10 0 10, extent2 3 7 0 2, extent2 3 7 8 10],
           some (extent2 3 7 2 8)) := by
  have hres := cis_result self other I hI
  have hpw := pairwise_inv self other I hI n (le_refl n)
  rw [cisBox_n, List.pairwise_append] at hpw
  obtain ⟨hpwL, _, hpwX⟩ := hpw
  refine ⟨⟨?_, ?_, ?_, ?_⟩, ?_⟩
  · rw [hres]
    exact hpwL
  · rw [hres]
    exact fun L hL => hpwX L hL I (List.mem_singleton.mpr rfl)
  · intro x
    rw [hres]
    have hu := union_inv self other I hI n (le_refl n) x
    rw [cisBox_n] at hu
    simpa using hu
  · rw [hres]
  · refine Prod.ext (leqv_iff.mp ?_) (oeqv_iff.mp ?_) <;> decide

/-- Witness for C3: the theorem applied at the concrete spec scenario,
hypotheses discharged by evaluation. -/
theorem C3_intersection_split_tiling_witness :
    ((extent2 0 10 0 10).nonempty ∧ (extent2 3 7 2 8).nonempty
      ∧ (extent2 0 10 0 10).calc_intersection (extent2 3 7 2 8)
          = some (extent2 3 7 2 8))
    ∧ List.Pairwise IndexingExtent.disjointWith
        ((extent2 0 10 0 10).calc_intersection_split (extent2 3 7 2 8)).1 :=
  ⟨⟨by decide, by decide, oeqv_iff.mp (by decide)⟩,
   (C3_intersection_split_tiling (extent2 0 10 0 10) (extent2 3 7 2 8)
      (extent2 3 7 2 8) (by decide) (by decide) (oeqv_iff.mp (by decide))).1.1⟩

/-! ## The decomposition module: `DecompExtent` and the halo-update planner

From `mpi_array/decomposition.py`.  Sides are `Fin 2`: `0` = `LO`,
`1` = `HI`. -/

/-- `DecompExtent` (decomposition.py lines 438-513): a halo indexing
extent (`_beg`, `_end`, `_halo`) together with its cartesian coordinate,
the cartesian grid shape and the shape of the partitioned array. -/
structure DecompExtent (n : ℕ) where
  start : Fin n → ℤ
  stop : Fin n → ℤ
  halo : Fin n → Fin 2 → ℤ
  cart_coord : Fin n → ℤ
  cart_shape : Fin n → ℤ
  array_shape : Fin n → ℤ

/-- The `DecompExtent` constructor with the `ARRAY_BOUNDS` policy
(decomposition.py lines 476-492): the requested halo is clamped per axis
to `min(start_n, halo[:,LO])` on the low side and
`min(array_shape - stop_n, halo[:,HI])` on the high side. -/
def DecompExtent.make {n : ℕ} (cart_coord cart_shape array_shape : Fin n → ℤ)
    (start stop : Fin n → ℤ) (halo : Fin n → Fin 2 → ℤ) : DecompExtent n :=
  { start := start
    stop := stop
    halo := fun a s =>
      if s = 0 then min (start a) (halo a 0)
      else min (array_shape a - stop a) (halo a 1)
    cart_coord := cart_coord
    cart_shape := cart_shape
    array_shape := array_shape }

/-- `start_h`: start index including halo. -/
def DecompExtent.start_h {n : ℕ} (self : DecompExtent n) : Fin n → ℤ :=
  fun a => self.start a - self.halo a 0

/-- `stop_h`: stop index including halo. -/
def DecompExtent.stop_h {n : ℕ} (self : DecompExtent n) : Fin n → ℤ :=
  fun a => self.stop a + self.halo a 1

/-- The interior (`start_n`/`stop_n`) box of a `DecompExtent`. -/
def DecompExtent.interior {n : ℕ} (self : DecompExtent n) : IndexingExtent n :=
  { start := self.start, stop := self.stop }

/-- The with-halo box of a `DecompExtent`. -/
def DecompExtent.withHalo {n : ℕ} (self : DecompExtent n) : IndexingExtent n :=
  { start := self.start_h, stop := self.stop_h }

/-- `DecompExtent.halo_slab_extent` (decomposition.py lines 515-537):
the halo slab flush against the given side of the with-halo box. -/
def DecompExtent.halo_slab_extent {n : ℕ} (self : DecompExtent n)
    (axis : Fin n) (dir : Fin 2) : IndexingExtent n :=
  if dir = 0 then
    { start := self.start_h
      stop := updAt self.stop_h axis (self.start_h axis + self.halo axis 0) }
  else
    { start := updAt self.start_h axis (self.stop_h axis - self.halo axis 1)
      stop := self.stop_h }

/-- `DecompExtent.no_halo_extent` (decomposition.py lines 539-559): the
with-halo box with the halo stripped on `axis` only. -/
def DecompExtent.no_halo_extent {n : ℕ} (self : DecompExtent n)
    (axis : Fin n) : IndexingExtent n :=
  { start := updAt self.start_h axis (self.start_h axis + self.halo axis 0)
    stop := updAt self.stop_h axis (self.stop_h axis - self.halo axis 1) }

/-- `SingleExtentUpdate` (decomposition.py lines 562-570). -/
structure SingleExtentUpdate (n : ℕ) where
  dst_extent : DecompExtent n
  src_extent : DecompExtent n
  update_extent : IndexingExtent n

/-- `HalosUpdate.calc_halo_intersection` (decomposition.py lines
600-622): intersection of the destination's halo slab with the source's
update region. -/
def calc_halo_intersection {n : ℕ} (dst_extent src_extent : DecompExtent n)
    (axis : Fin n) (dir : Fin 2) : Option (IndexingExtent n) :=
  (dst_extent.halo_slab_extent axis dir).calc_intersection
    (src_extent.no_halo_extent axis)

/-- The neighbour-step offsets walked by `HalosUpdate.initialise` for one
`(axis, dir)` pair (decomposition.py lines 662-668): the `LO` range is
`range(-1, -cart_coord[a]-1, -1)`, the `HI` range is
`range(1, cart_shape[a]-cart_coord[a], 1)`. -/
def walkSteps {n : ℕ} (dst : DecompExtent n) (a : Fin n) (dir : Fin 2) : List ℤ :=
  if dir = 0 then
    (List.range (dst.cart_coord a).toNat).map (fun j : ℕ => -((j : ℤ) + 1))
  else
    (List.range (dst.cart_shape a - dst.cart_coord a - 1).toNat).map
      (fun j : ℕ => (j : ℤ) + 1)

/-- The inner neighbour loop of `HalosUpdate.initialise` (decomposition.py
lines 669-680) for a fixed `(axis, dir)`: look the neighbour up by
cartesian coordinate, record the halo intersection if present
(`split_extent_for_max_elements` wraps it in a one-element list), and
`break` on the first absent intersection. -/
def walkGo {n : ℕ} (fam : (Fin n → ℤ) → DecompExtent n) (dst : DecompExtent n)
    (a : Fin n) (dir : Fin 2) : List ℤ → List (SingleExtentUpdate n)
  | [] => []
  | i :: rest =>
    let src := fam (updAt dst.cart_coord a (dst.cart_coord a + i))
    match calc_halo_intersection dst src a dir with
    | some halo_extent => ⟨dst, src, halo_extent⟩ :: walkGo fam dst a dir rest
    | none => []

/-- The update records produced while walking the neighbours of `dst`
along `axis` on side `dir`.  `fam` is the
`cart_coord → DecompExtent` map built by `initialise` from
`rank_to_extents_dict`. -/
def walk {n : ℕ} (fam : (Fin n → ℤ) → DecompExtent n) (dst : DecompExtent n)
    (a : Fin n) (dir : Fin 2) : List (SingleExtentUpdate n) :=
  walkGo fam dst a dir (walkSteps dst a dir)

/-- The per-direction shared buckets built by `HalosUpdate.initialise`
(decomposition.py line 656): `self._updates = [[[], []]] * ndim`
replicates **one** `[[], []]` object `ndim` times, so `_updates[a]` is
the *same* pair of lists for every axis `a`, and
`_updates[a][dir] += ...` extends that shared list.  The loop order is
`for dir in [LO, HI]: for a in range(ndim): ...`, so after `initialise`
the shared `dir` list holds the records of all axes with direction
`dir`, in axis order. -/
def initialiseShared {n : ℕ} (fam : (Fin n → ℤ) → DecompExtent n)
    (dst : DecompExtent n) :
    List (SingleExtentUpdate n) × List (SingleExtentUpdate n) :=
  ((List.finRange n).foldl (fun acc a => acc ++ walk fam dst a 0) [],
   (List.finRange n).foldl (fun acc a => acc ++ walk fam dst a 1) [])

/-- The bucket `self._updates[a][dir]` after `HalosUpdate.initialise`:
because of the aliasing above it is the shared per-direction list,
independent of `a`. -/
def updates {n : ℕ} (fam : (Fin n → ℤ) → DecompExtent n) (dst : DecompExtent n)
    (_a : Fin n) (dir : Fin 2) : List (SingleExtentUpdate n) :=
  if dir = 0 then (initialiseShared fam dst).1 else (initialiseShared fam dst).2

theorem halo_slab_lo {n : ℕ} (E : DecompExtent n) (axis : Fin n) :
    E.halo_slab_extent axis 0
      = { start := E.start_h
          stop := updAt E.stop_h axis (E.start_h axis + E.halo axis 0) } := by
  simp [DecompExtent.halo_slab_extent]

theorem halo_slab_hi {n : ℕ} (E : DecompExtent n) (axis : Fin n) :
    E.halo_slab_extent axis 1
      = { start := updAt E.start_h axis (E.stop_h axis - E.halo axis 1)
          stop := E.stop_h } := by
  unfold DecompExtent.halo_slab_extent
  rw [if_neg (by decide)]

theorem fin2_eq_one {dir : Fin 2} (hdir : dir ≠ 0) : dir = 1 :=
  Fin.ext (by
    have h1 := dir.isLt
    have h2 : dir.val ≠ 0 := fun h => hdir (Fin.ext h)
    omega)

/-! ### Block-partition families

The per-locale extents of a block partition are produced by the external
`array_split` package, which is not part of this repository's sources.
`blockExtent` and `IsBlockFamily` are therefore modelled from the spec
(§4.6): each axis `a` is cut at monotone boundary positions
`P a 0 = 0, …, P a (dims a) = shape a`, the balanced rule making piece
sizes differ by at most one with larger pieces at lower indices (hence
piece sizes are non-increasing in the piece index); coordinate `c` owns
`[P a (c a), P a (c a + 1))` on axis `a`, and the requested halo is
clamped by the `DecompExtent` constructor. -/

/-- Modelled from the spec: the extent of grid coordinate `c` in a block
partition with boundary positions `P`. -/
def blockExtent {n : ℕ} (dims shape : Fin n → ℤ) (P : Fin n → ℤ → ℤ)
    (req : Fin n → Fin 2 → ℤ) (c : Fin n → ℤ) : DecompExtent n :=
  DecompExtent.make c dims shape (fun a => P a (c a)) (fun a => P a (c a + 1)) req

/-- Modelled from the spec: `fam` is the coordinate-to-extent map of a
block partition of `shape` into a `dims` grid with boundary positions
`P` and requested halo `req`. -/
structure IsBlockFamily {n : ℕ} (fam : (Fin n → ℤ) → DecompExtent n)
    (dims shape : Fin n → ℤ) (P : Fin n → ℤ → ℤ)
    (req : Fin n → Fin 2 → ℤ) : Prop where
  req_nonneg : ∀ a s, 0 ≤ req a s
  mono : ∀ a, ∀ j k : ℤ, j ≤ k → P a j ≤ P a k
  zero : ∀ a, P a 0 = 0
  last : ∀ a, P a (dims a) = shape a
  sizes_anti : ∀ a, ∀ j k : ℤ, 0 ≤ j → j ≤ k → k < dims a →
      P a (k + 1) - P a k ≤ P a (j + 1) - P a j
  agrees : ∀ c : Fin n → ℤ, (∀ i, 0 ≤ c i ∧ c i < dims i) →
      fam c = blockExtent dims shape P req c

/-- Modelled from the spec: the balanced-split boundary position of cut
`j` when `N` elements are split into `d` pieces — the first `N % d`
pieces have size `N / d + 1`, the rest size `N / d`. -/
def balancedPos (N d j : ℤ) : ℤ := j * (N / d) + min j (N % d)

/-- The balanced rule yields monotone boundaries from `0` to `N` with
non-increasing piece sizes — the properties `IsBlockFamily` asks of the
positions. -/
theorem balancedPos_props (N d : ℤ) (hN : 0 ≤ N) (hd : 0 < d) :
    balancedPos N d 0 = 0 ∧ balancedPos N d d = N
    ∧ (∀ j k : ℤ, j ≤ k → balancedPos N d j ≤ balancedPos N d k)
    ∧ (∀ j k : ℤ, 0 ≤ j → j ≤ k → k < d →
        balancedPos N d (k + 1) - balancedPos N d k
          ≤ balancedPos N d (j + 1) - balancedPos N d j) := by
  have hq : 0 ≤ N / d := Int.ediv_nonneg hN (le_of_lt hd)
  have hr0 : 0 ≤ N % d := Int.emod_nonneg N (by omega)
  have hrd : N % d < d := Int.emod_lt_of_pos N hd
  have hNd : d * (N / d) + N % d = N := Int.ediv_add_emod N d
  refine ⟨?_, ?_, ?_, ?_⟩
  · unfold balancedPos
    omega
  · have : min d (N % d) = N % d := min_eq_right (le_of_lt hrd)
    unfold balancedPos
    rw [this]
    omega
  · intro j k hjk
    unfold balancedPos
    have h1 : j * (N / d) ≤ k * (N / d) := by
      exact mul_le_mul_of_nonneg_right hjk hq
    have h2 : min j (N % d) ≤ min k (N % d) := by omega
    omega
  · intro j k hj hjk hk
    unfold balancedPos
    have e1 : (k + 1) * (N / d) - k * (N / d) = N / d := by ring
    have e2 : (j + 1) * (N / d) - j * (N / d) = N / d := by ring
    have h1 : min (k + 1) (N % d) - min k (N % d)
        ≤ min (j + 1) (N % d) - min j (N % d) := by omega
    omega

theorem DecompExtent.ext_fields {n : ℕ} {a b : DecompExtent n}
    (h1 : ∀ i, a.start i = b.start i) (h2 : ∀ i, a.stop i = b.stop i)
    (h3 : ∀ i s, a.halo i s = b.halo i s)
    (h4 : ∀ i, a.cart_coord i = b.cart_coord i)
    (h5 : ∀ i, a.cart_shape i = b.cart_shape i)
    (h6 : ∀ i, a.array_shape i = b.array_shape i) : a = b := by
  cases a; cases b
  simp only [DecompExtent.mk.injEq]
  exact ⟨funext h1, funext h2, funext fun i => funext (h3 i),
    funext h4, funext h5, funext h6⟩

theorem blockExtent_halo_lo {n : ℕ} (dims shape : Fin n → ℤ) (P : Fin n → ℤ → ℤ)
    (req : Fin n → Fin 2 → ℤ) (c : Fin n → ℤ) (a : Fin n) :
    (blockExtent dims shape P req c).halo a 0 = min (P a (c a)) (req a 0) := by
  simp [blockExtent, DecompExtent.make]

theorem blockExtent_halo_hi {n : ℕ} (dims shape : Fin n → ℤ) (P : Fin n → ℤ → ℤ)
    (req : Fin n → Fin 2 → ℤ) (c : Fin n → ℤ) (a : Fin n) :
    (blockExtent dims shape P req c).halo a 1
      = min (shape a - P a (c a + 1)) (req a 1) := by
  simp [blockExtent, DecompExtent.make]

/-! Per-axis descriptions of the halo slab and the no-halo extent. -/

theorem slab_axis_lo {n : ℕ} (E : DecompExtent n) (a : Fin n) :
    (E.halo_slab_extent a 0).start a = E.start_h a
    ∧ (E.halo_slab_extent a 0).stop a = E.start a := by
  rw [halo_slab_lo]
  refine ⟨rfl, ?_⟩
  show updAt E.stop_h a (E.start_h a + E.halo a 0) a = E.start a
  rw [updAt_same]
  unfold DecompExtent.start_h
  ring

theorem slab_axis_hi {n : ℕ} (E : DecompExtent n) (a : Fin n) :
    (E.halo_slab_extent a 1).start a = E.stop a
    ∧ (E.halo_slab_extent a 1).stop a = E.stop_h a := by
  rw [halo_slab_hi]
  refine ⟨?_, rfl⟩
  show updAt E.start_h a (E.stop_h a - E.halo a 1) a = E.stop a
  rw [updAt_same]
  unfold DecompExtent.stop_h
  ring

theorem slab_axis_ne {n : ℕ} (E : DecompExtent n) (a : Fin n) (dir : Fin 2)
    {b : Fin n} (hba : b ≠ a) :
    (E.halo_slab_extent a dir).start b = E.start_h b
    ∧ (E.halo_slab_extent a dir).stop b = E.stop_h b := by
  by_cases hdir : dir = 0
  · subst hdir
    rw [halo_slab_lo]
    exact ⟨rfl, updAt_ne _ _ _ hba⟩
  · rw [fin2_eq_one hdir, halo_slab_hi]
    exact ⟨updAt_ne _ _ _ hba, rfl⟩

theorem noh_axis {n : ℕ} (E : DecompExtent n) (a : Fin n) :
    (E.no_halo_extent a).start a = E.start a
    ∧ (E.no_halo_extent a).stop a = E.stop a := by
  unfold DecompExtent.no_halo_extent
  constructor
  · show updAt E.start_h a (E.start_h a + E.halo a 0) a = E.start a
    rw [updAt_same]
    unfold DecompExtent.start_h
    ring
  · show updAt E.stop_h a (E.stop_h a - E.halo a 1) a = E.stop a
    rw [updAt_same]
    unfold DecompExtent.stop_h
    ring

theorem noh_ne {n : ℕ} (E : DecompExtent n) (a : Fin n) {b : Fin n} (hba : b ≠ a) :
    (E.no_halo_extent a).start b = E.start_h b
    ∧ (E.no_halo_extent a).stop b = E.stop_h b :=
  ⟨updAt_ne _ _ _ hba, updAt_ne _ _ _ hba⟩

/-- Off-axis with-halo bounds of a block extent depend only on the
off-axis coordinate. -/
theorem blockExtent_h_of_ne {n : ℕ} (dims shape : Fin n → ℤ) (P : Fin n → ℤ → ℤ)
    (req : Fin n → Fin 2 → ℤ) (c : Fin n → ℤ) (a : Fin n) (v : ℤ)
    {b : Fin n} (hba : b ≠ a) :
    (blockExtent dims shape P req (updAt c a v)).start_h b
      = (blockExtent dims shape P req c).start_h b
    ∧ (blockExtent dims shape P req (updAt c a v)).stop_h b
      = (blockExtent dims shape P req c).stop_h b := by
  unfold DecompExtent.start_h DecompExtent.stop_h
  rw [blockExtent_halo_lo, blockExtent_halo_lo, blockExtent_halo_hi,
    blockExtent_halo_hi]
  have hc : updAt c a v b = c b := updAt_ne _ _ _ hba
  constructor
  · show P b (updAt c a v b) - _ = P b (c b) - _
    rw [hc]
  · show P b (updAt c a v b + 1) + _ = P b (c b + 1) + _
    rw [hc]

/-- `calc_intersection` is absent exactly when some axis collapses. -/
theorem calc_intersection_eq_none {n : ℕ} {A B : IndexingExtent n} :
    A.calc_intersection B = none
      ↔ ∃ i, min (A.stop i) (B.stop i) ≤ max (A.start i) (B.start i) := by
  unfold IndexingExtent.calc_intersection
  dsimp only
  split_ifs with h
  · exact iff_of_true rfl h
  · exact iff_of_false (by simp) h

/-! ### The concrete 2-D scenario: shape `(10, 10)`, grid `2 × 2`,
requested halo `[[1, 2], [2, 1]]` (spec §8 scenario 3). -/

/-- Requested halo `[[1,2],[2,1]]`. -/
def req2 : Fin 2 → Fin 2 → ℤ :=
  fun a s => if a = 0 then (if s = 0 then 1 else 2) else (if s = 0 then 2 else 1)

/-- The block-partition extent at grid coordinate `c` for shape
`(10, 10)` split `2 × 2` (tiles of `5`, boundary positions `5·j`), with
the requested halo clamped by `DecompExtent.make`. -/
def famExtent2 (c : Fin 2 → ℤ) : DecompExtent 2 :=
  blockExtent (fun _ => 2) (fun _ => 10) (fun _ j => 5 * j) req2 c

/-- The coordinate-to-extent map of the 2-D scenario. -/
def fam2 : (Fin 2 → ℤ) → DecompExtent 2 := famExtent2

/-- Destination extent: grid coordinate `(0, 0)`, interior `[0,5)×[0,5)`. -/
def e00 : DecompExtent 2 := fam2 (fun _ => 0)

/-- Source extent at grid coordinate `(1, 0)`, interior `[5,10)×[0,5)`. -/
def e10 : DecompExtent 2 := fam2 (fun i => if i = 0 then 1 else 0)

/-- C1: the buckets of `HalosUpdate.initialise` are aliased.
`self._updates = [[[], []]] * ndim` replicates one `[[], []]` object, so
the bucket for `(axis 0, HI)` equals the bucket for `(axis 1, HI)` and
holds the records of *both* axes (two records), while the walk along
axis 0 alone produces one record: records of different axes do not land
in different buckets. -/
theorem C1_bucket_aliasing :
    updates fam2 e00 0 1 = updates fam2 e00 1 1
    ∧ updates fam2 e00 0 1 = walk fam2 e00 0 1 ++ walk fam2 e00 1 1
    ∧ (walk fam2 e00 0 1).length = 1
    ∧ (walk fam2 e00 1 1).length = 1
    ∧ (updates fam2 e00 0 1).length = 2 :=
  ⟨rfl, rfl, by decide, by decide, by decide⟩

/-- C4 counterexample: in the 2-D scenario the destination `(0, 0)`
receives one record from walking axis 0 (HI) and one from walking
axis 1 (HI); both overlap extents contain the halo-corner point
`(5, 5)`, so the overlaps of the plan are *not* pairwise disjoint
across axes. -/
theorem C4_cross_axis_overlap_counterexample :
    (walk fam2 e00 0 1).length = 1
    ∧ (walk fam2 e00 1 1).length = 1
    ∧ ∀ u ∈ walk fam2 e00 0 1, ∀ v ∈ walk fam2 e00 1 1,
        ¬ u.update_extent.disjointWith v.update_extent := by
  refine ⟨by decide, by decide, ?_⟩
  intro u hu v hv hdisj
  have h1 : ∀ w ∈ walk fam2 e00 0 1, w.update_extent.mem ![5, 5] := by decide
  have h2 : ∀ w ∈ walk fam2 e00 1 1, w.update_extent.mem ![5, 5] := by decide
  exact hdisj ![5, 5] ⟨h1 u hu, h2 v hv⟩

/-- C5 counterexample: the overlap produced for destination `(0, 0)`
along axis 0 (HI) contains the point `(5, 5)`, which is *not* in the
source's interior (no-halo) region `[5,10)×[0,5)` — it lies in the
source's halo on axis 1.  So the overlap is not contained in
`dst.halo_region ∩ src.interior_region`. -/
theorem C5_overlap_in_src_interior_counterexample :
    (walk fam2 e00 0 1).length = 1
    ∧ ∀ u ∈ walk fam2 e00 0 1,
        u.update_extent.mem ![5, 5] ∧ ¬ u.src_extent.interior.mem ![5, 5] :=
  ⟨by decide, by decide⟩

/-- C5 (amended): every overlap `O` produced by
`calc_halo_intersection(dst, src, axis, dir)` lies inside `dst`'s halo
region (the with-halo box minus the interior) and inside
`src.no_halo_extent(axis)`: on the walked axis it is restricted to
`src`'s interior, on the other axes `src`'s halo is retained. -/
theorem C5_overlap_containment {n : ℕ} (dst src : DecompExtent n)
    (axis : Fin n) (dir : Fin 2) (O : IndexingExtent n)
    (hvalid : ∀ i, dst.start i ≤ dst.stop i)
    (hhalo : ∀ i s, 0 ≤ dst.halo i s)
    (hO : calc_halo_intersection dst src axis dir = some O) (x : Fin n → ℤ)
    (hx : O.mem x) :
    dst.withHalo.mem x ∧ ¬ dst.interior.mem x
      ∧ (src.no_halo_extent axis).mem x := by
  unfold calc_halo_intersection at hO
  obtain ⟨hslab, hnoh⟩ := (calc_intersection_mem hO x).mp hx
  by_cases hdir : dir = 0
  · subst hdir
    rw [halo_slab_lo] at hslab
    have hax := hslab axis
    dsimp only at hax
    rw [updAt_same] at hax
    refine ⟨fun i => ?_, fun hmem => ?_, hnoh⟩
    · have h := hslab i
      dsimp only at h
      dsimp only [DecompExtent.withHalo]
      rcases eq_or_ne i axis with rfl | hia
      · have h1 := hvalid i
        have h2 := hhalo i 0
        have h3 := hhalo i 1
        dsimp only [DecompExtent.start_h, DecompExtent.stop_h] at hax ⊢
        constructor <;> omega
      · rw [updAt_ne _ _ _ hia] at h
        exact h
    · have hint := hmem axis
      dsimp only [DecompExtent.interior] at hint
      dsimp only [DecompExtent.start_h] at hax
      have h2 := hhalo axis 0
      omega
  · rw [fin2_eq_one hdir] at hslab
    rw [halo_slab_hi] at hslab
    have hax := hslab axis
    dsimp only at hax
    rw [updAt_same] at hax
    refine ⟨fun i => ?_, fun hmem => ?_, hnoh⟩
    · have h := hslab i
      dsimp only at h
      dsimp only [DecompExtent.withHalo]
      rcases eq_or_ne i axis with rfl | hia
      · have h1 := hvalid i
        have h2 := hhalo i 0
        have h3 := hhalo i 1
        dsimp only [DecompExtent.start_h, DecompExtent.stop_h] at hax ⊢
        constructor <;> omega
      · rw [updAt_ne _ _ _ hia] at h
        exact h
    · have hint := hmem axis
      dsimp only [DecompExtent.interior] at hint
      dsimp only [DecompExtent.stop_h] at hax
      have h3 := hhalo axis 1
      omega

/-- Witness for C5 (amended): the containment evaluated on the concrete
axis-0 HI overlap of the 2-D scenario at the corner point `(5, 5)`. -/
theorem C5_overlap_containment_witness :
    ((∀ i, e00.start i ≤ e00.stop i) ∧ (∀ i s, 0 ≤ e00.halo i s)
      ∧ calc_halo_intersection e00 e10 0 1 = some (extent2 5 7 0 6)
      ∧ (extent2 5 7 0 6).mem ![5, 5])
    ∧ (e00.withHalo.mem ![5, 5] ∧ ¬ e00.interior.mem ![5, 5]
        ∧ (e10.no_halo_extent 0).mem ![5, 5]) :=
  ⟨⟨by decide, by decide, oeqv_iff.mp (by decide), by decide⟩,
   C5_overlap_containment e00 e10 0 1 (extent2 5 7 0 6) (by decide) (by decide)
     (oeqv_iff.mp (by decide)) ![5, 5] (by decide)⟩

/-! ### C7: the short-circuit of the neighbour walk.

Counterexample scenario: the balanced block partition of shape `(1,)`
into `3` pieces has piece sizes `(1, 0, 0)` (sizes differ by at most
one, larger pieces at lower indices), i.e. interiors `[0,1)`, `[1,1)`,
`[1,1)`.  With requested halo `1`, the destination at coordinate `2`
walks LO neighbours `(-1, -2)`; the nearest neighbour (coordinate `1`,
empty interior) yields an absent overlap and the walk breaks, but the
farther neighbour (coordinate `0`) would yield the overlap `[0,1)`. -/

/-- Balanced block-partition boundary positions for `N = 1`, `d = 3`:
`pos(0) = 0`, `pos(1) = pos(2) = pos(3) = 1` (piece sizes `1, 0, 0`). -/
def pos13 : ℤ → ℤ := fun j => if j ≤ 0 then 0 else 1

/-- The 1-D family: coordinate `c` owns `[pos13 c, pos13 (c+1))` in the
array of shape `(1,)`, grid shape `(3,)`, requested halo `1`. -/
def fam1 : (Fin 1 → ℤ) → DecompExtent 1 := fun c =>
  DecompExtent.make c (fun _ => 3) (fun _ => 1)
    (fun a => pos13 (c a)) (fun a => pos13 (c a + 1)) (fun _ _ => 1)

/-- The destination at grid coordinate `2` (empty interior `[1,1)`,
low halo clamped to `1`). -/
def d2 : DecompExtent 1 := fam1 (fun _ => 2)

/-- C7 counterexample: the nearest LO neighbour of `d2` yields an absent
overlap, but the farther neighbour yields a present one, so the break
loses an update record (the walk returns no records). -/
theorem C7_short_circuit_counterexample :
    walkSteps d2 0 0 = [-1, -2]
    ∧ calc_halo_intersection d2 (fam1 (fun _ => 1)) 0 0 = none
    ∧ calc_halo_intersection d2 (fam1 (fun _ => 0)) 0 0
        = some { start := fun _ => 0, stop := fun _ => 1 }
    ∧ (walk fam1 d2 0 0).length = 0 := by
  refine ⟨by decide, oeqv_iff.mp (by decide), oeqv_iff.mp (by decide), by decide⟩


/-- C7 (amended): in a block-partition family whose pieces along the
walked axis are all non-empty, if the nearest neighbour along
`(a, dir)` yields an absent overlap then every farther neighbour does
too, so the planner's early break loses no update records.  (The
counterexample shows the restriction to non-empty pieces is needed:
with an empty piece adjacent to the destination the break can lose a
record.) -/
theorem C7_short_circuit_nonempty_pieces {n : ℕ}
    (fam : (Fin n → ℤ) → DecompExtent n) (dims shape : Fin n → ℤ)
    (P : Fin n → ℤ → ℤ) (req : Fin n → Fin 2 → ℤ)
    (hb : IsBlockFamily fam dims shape P req)
    (c : Fin n → ℤ) (hc : ∀ i, 0 ≤ c i ∧ c i < dims i) (a : Fin n)
    (hstrict : ∀ j : ℤ, 0 ≤ j → j < dims a → P a j < P a (j + 1))
    (dir : Fin 2) (j : ℤ) (hj : 1 ≤ j)
    (hjr : 0 ≤ c a + (if dir = 0 then -1 else 1) * j
            ∧ c a + (if dir = 0 then -1 else 1) * j < dims a)
    (hnear : calc_halo_intersection (fam c)
        (fam (updAt c a (c a + (if dir = 0 then -1 else 1)))) a dir = none) :
    calc_halo_intersection (fam c)
      (fam (updAt c a (c a + (if dir = 0 then -1 else 1) * j))) a dir = none := by
  have hca := hc a
  have hA0 : 0 ≤ P a (c a) := by
    have := hb.mono a 0 (c a) (by omega)
    rw [hb.zero a] at this
    exact this
  by_cases hdir : dir = 0
  · subst hdir
    rw [if_pos rfl] at hjr hnear ⊢
    have hc1 : ∀ i, 0 ≤ updAt c a (c a + -1) i ∧ updAt c a (c a + -1) i < dims i := by
      intro i
      rcases eq_or_ne i a with rfl | hia
      · rw [updAt_same]
        omega
      · rw [updAt_ne _ _ _ hia]
        exact hc i
    have hcj : ∀ i, 0 ≤ updAt c a (c a + -1 * j) i
        ∧ updAt c a (c a + -1 * j) i < dims i := by
      intro i
      rcases eq_or_ne i a with rfl | hia
      · rw [updAt_same]
        omega
      · rw [updAt_ne _ _ _ hia]
        exact hc i
    rw [hb.agrees c hc, hb.agrees _ hc1] at hnear
    rw [hb.agrees c hc, hb.agrees _ hcj]
    unfold calc_halo_intersection at hnear ⊢
    rw [calc_intersection_eq_none] at hnear ⊢
    obtain ⟨i, hi⟩ := hnear
    rcases eq_or_ne i a with rfl | hia
    · -- the nearest neighbour fails on the walked axis: the slab is empty
      refine ⟨i, ?_⟩
      rw [(slab_axis_lo _ i).1, (slab_axis_lo _ i).2] at hi ⊢
      rw [(noh_axis _ i).1, (noh_axis _ i).2] at hi ⊢
      have e1 : (blockExtent dims shape P req (updAt c i (c i + -1))).start i
          = P i (c i + -1) := by
        show P i (updAt c i (c i + -1) i) = _
        rw [updAt_same]
      have e2 : (blockExtent dims shape P req (updAt c i (c i + -1))).stop i
          = P i (c i + -1 + 1) := by
        show P i (updAt c i (c i + -1) i + 1) = _
        rw [updAt_same]
      have e3 : (blockExtent dims shape P req (updAt c i (c i + -1 * j))).start i
          = P i (c i + -1 * j) := by
        show P i (updAt c i (c i + -1 * j) i) = _
        rw [updAt_same]
      have e4 : (blockExtent dims shape P req (updAt c i (c i + -1 * j))).stop i
          = P i (c i + -1 * j + 1) := by
        show P i (updAt c i (c i + -1 * j) i + 1) = _
        rw [updAt_same]
      rw [e1, e2] at hi
      rw [e3, e4]
      have eD : (blockExtent dims shape P req c).start i = P i (c i) := rfl
      have eDh : (blockExtent dims shape P req c).start_h i
          = P i (c i) - min (P i (c i)) (req i 0) := by
        unfold DecompExtent.start_h
        rw [blockExtent_halo_lo]
        rfl
      rw [eD, eDh] at hi ⊢
      have ep : c i + -1 + 1 = c i := by ring
      rw [ep] at hi
      have hP1 : P i (c i + -1) < P i (c i) := by
        have h := hstrict (c i + -1) (by omega) (by omega)
        rwa [ep] at h
      have hr0 := hb.req_nonneg i 0
      have hmj : P i (c i + -1 * j + 1) ≤ P i (c i) := hb.mono i _ _ (by omega)
      omega
    · -- the nearest neighbour fails on another axis: so do all neighbours
      refine ⟨i, ?_⟩
      rw [(slab_axis_ne _ a 0 hia).1, (slab_axis_ne _ a 0 hia).2] at hi ⊢
      rw [(noh_ne _ a hia).1, (noh_ne _ a hia).2] at hi ⊢
      rw [(blockExtent_h_of_ne dims shape P req c a _ hia).1,
        (blockExtent_h_of_ne dims shape P req c a _ hia).2] at hi
      rw [(blockExtent_h_of_ne dims shape P req c a _ hia).1,
        (blockExtent_h_of_ne dims shape P req c a _ hia).2]
      exact hi
  · rw [fin2_eq_one hdir] at hnear hjr ⊢
    rw [if_neg (by decide)] at hjr hnear ⊢
    have hc1 : ∀ i, 0 ≤ updAt c a (c a + 1) i ∧ updAt c a (c a + 1) i < dims i := by
      intro i
      rcases eq_or_ne i a with rfl | hia
      · rw [updAt_same]
        omega
      · rw [updAt_ne _ _ _ hia]
        exact hc i
    have hcj : ∀ i, 0 ≤ updAt c a (c a + 1 * j) i
        ∧ updAt c a (c a + 1 * j) i < dims i := by
      intro i
      rcases eq_or_ne i a with rfl | hia
      · rw [updAt_same]
        omega
      · rw [updAt_ne _ _ _ hia]
        exact hc i
    rw [hb.agrees c hc, hb.agrees _ hc1] at hnear
    rw [hb.agrees c hc, hb.agrees _ hcj]
    unfold calc_halo_intersection at hnear ⊢
    rw [calc_intersection_eq_none] at hnear ⊢
    obtain ⟨i, hi⟩ := hnear
    rcases eq_or_ne i a with rfl | hia
    · refine ⟨i, ?_⟩
      rw [(slab_axis_hi _ i).1, (slab_axis_hi _ i).2] at hi ⊢
      rw [(noh_axis _ i).1, (noh_axis _ i).2] at hi ⊢
      have e1 : (blockExtent dims shape P req (updAt c i (c i + 1))).start i
          = P i (c i + 1) := by
        show P i (updAt c i (c i + 1) i) = _
        rw [updAt_same]
      have e2 : (blockExtent dims shape P req (updAt c i (c i + 1))).stop i
          = P i (c i + 1 + 1) := by
        show P i (updAt c i (c i + 1) i + 1) = _
        rw [updAt_same]
      have e3 : (blockExtent dims shape P req (updAt c i (c i + 1 * j))).start i
          = P i (c i + 1 * j) := by
        show P i (updAt c i (c i + 1 * j) i) = _
        rw [updAt_same]
      have e4 : (blockExtent dims shape P req (updAt c i (c i + 1 * j))).stop i
          = P i (c i + 1 * j + 1) := by
        show P i (updAt c i (c i + 1 * j) i + 1) = _
        rw [updAt_same]
      rw [e1, e2] at hi
      rw [e3, e4]
      have eD : (blockExtent dims shape P req c).stop i = P i (c i + 1) := rfl
      have eDh : (blockExtent dims shape P req c).stop_h i
          = P i (c i + 1) + min (shape i - P i (c i + 1)) (req i 1) := by
        unfold DecompExtent.stop_h
        rw [blockExtent_halo_hi]
        rfl
      rw [eD, eDh] at hi ⊢
      have hP1 : P i (c i + 1) < P i (c i + 1 + 1) :=
        hstrict (c i + 1) (by omega) (by omega)
      have hr1 := hb.req_nonneg i 1
      have hsh : P i (c i + 1) ≤ shape i := by
        have h := hb.mono i (c i + 1) (dims i) (by omega)
        rwa [hb.last i] at h
      have hmj : P i (c i + 1) ≤ P i (c i + 1 * j) := hb.mono i _ _ (by omega)
      omega
    · refine ⟨i, ?_⟩
      rw [(slab_axis_ne _ a 1 hia).1, (slab_axis_ne _ a 1 hia).2] at hi ⊢
      rw [(noh_ne _ a hia).1, (noh_ne _ a hia).2] at hi ⊢
      rw [(blockExtent_h_of_ne dims shape P req c a _ hia).1,
        (blockExtent_h_of_ne dims shape P req c a _ hia).2] at hi
      rw [(blockExtent_h_of_ne dims shape P req c a _ hia).1,
        (blockExtent_h_of_ne dims shape P req c a _ hia).2]
      exact hi

/-! ### C4 (amended): same-axis disjointness of the planner's records -/

/-- The record the walk would produce at step `i`, as an `Option`. -/
def walkRecAt {n : ℕ} (fam : (Fin n → ℤ) → DecompExtent n) (dst : DecompExtent n)
    (a : Fin n) (dir : Fin 2) (i : ℤ) : Option (SingleExtentUpdate n) :=
  (calc_halo_intersection dst
      (fam (updAt dst.cart_coord a (dst.cart_coord a + i))) a dir).map
    (fun o => ⟨dst, fam (updAt dst.cart_coord a (dst.cart_coord a + i)), o⟩)

/-- The early-breaking walk yields a sublist of the break-free
`filterMap` over the same steps. -/
theorem walkGo_sublist {n : ℕ} (fam : (Fin n → ℤ) → DecompExtent n)
    (dst : DecompExtent n) (a : Fin n) (dir : Fin 2) :
    ∀ l : List ℤ,
      List.Sublist (walkGo fam dst a dir l) (l.filterMap (walkRecAt fam dst a dir))
  | [] => List.nil_sublist _
  | i :: rest => by
    rw [List.filterMap_cons]
    cases h : calc_halo_intersection dst
        (fam (updAt dst.cart_coord a (dst.cart_coord a + i))) a dir with
    | none =>
      simp only [walkGo, h, walkRecAt, Option.map_none]
      exact List.nil_sublist _
    | some o =>
      simp only [walkGo, h, walkRecAt, Option.map_some]
      exact List.Sublist.cons₂ _ (walkGo_sublist fam dst a dir rest)

/-- An overlap produced at step `i` is bounded on the walked axis by the
interior piece of the neighbour at coordinate `c a + i`. -/
theorem walkRecAt_overlap_bounds {n : ℕ}
    (fam : (Fin n → ℤ) → DecompExtent n) (dims shape : Fin n → ℤ)
    (P : Fin n → ℤ → ℤ) (req : Fin n → Fin 2 → ℤ)
    (hb : IsBlockFamily fam dims shape P req)
    (c : Fin n → ℤ) (a : Fin n) {i : ℤ}
    (hrange : ∀ b, 0 ≤ updAt c a (c a + i) b ∧ updAt c a (c a + i) b < dims b)
    (dir : Fin 2) {u : SingleExtentUpdate n}
    (hu : walkRecAt fam (blockExtent dims shape P req c) a dir i = some u)
    (x : Fin n → ℤ) (hx : u.update_extent.mem x) :
    P a (c a + i) ≤ x a ∧ x a < P a (c a + i + 1) := by
  unfold walkRecAt at hu
  have hcc : (blockExtent dims shape P req c).cart_coord = c := rfl
  rw [hcc] at hu
  rw [Option.map_eq_some'] at hu
  obtain ⟨O, hO, hrec⟩ := hu
  rw [hb.agrees _ hrange] at hO
  unfold calc_halo_intersection at hO
  have hxO : O.mem x := by
    rw [← hrec] at hx
    exact hx
  have h := ((calc_intersection_mem hO x).mp hxO).2
  have ha := h a
  have e1 : (blockExtent dims shape P req (updAt c a (c a + i))).start a
      = P a (c a + i) := by
    show P a (updAt c a (c a + i) a) = _
    rw [updAt_same]
  have e2 : (blockExtent dims shape P req (updAt c a (c a + i))).stop a
      = P a (c a + i + 1) := by
    show P a (updAt c a (c a + i) a + 1) = _
    rw [updAt_same]
  rw [(noh_axis _ a).1, (noh_axis _ a).2, e1, e2] at ha
  exact ha

/-- C4 (amended): the update records produced for a block-partition
destination while walking a single axis `a` — both sides, all
neighbours — have pairwise disjoint overlap extents.  (Across different
axes the overlaps may meet in halo corners; see the counterexample.) -/
theorem C4_same_axis_disjoint {n : ℕ}
    (fam : (Fin n → ℤ) → DecompExtent n) (dims shape : Fin n → ℤ)
    (P : Fin n → ℤ → ℤ) (req : Fin n → Fin 2 → ℤ)
    (hb : IsBlockFamily fam dims shape P req)
    (c : Fin n → ℤ) (hc : ∀ i, 0 ≤ c i ∧ c i < dims i) (a : Fin n) :
    List.Pairwise (fun u v => u.update_extent.disjointWith v.update_extent)
      (walk fam (fam c) a 0 ++ walk fam (fam c) a 1) := by
  rw [hb.agrees c hc]
  have hcoord : ∀ i : ℤ, 0 ≤ c a + i → c a + i < dims a →
      ∀ b, 0 ≤ updAt c a (c a + i) b ∧ updAt c a (c a + i) b < dims b := by
    intro i h1 h2 b
    rcases eq_or_ne b a with rfl | hba
    · rw [updAt_same]
      exact ⟨h1, h2⟩
    · rw [updAt_ne _ _ _ hba]
      exact hc b
  have key : ∀ (i i' : ℤ), i ≠ i' →
      (0 ≤ c a + i ∧ c a + i < dims a) → (0 ≤ c a + i' ∧ c a + i' < dims a) →
      ∀ (dir dir' : Fin 2) (u v : SingleExtentUpdate n),
        walkRecAt fam (blockExtent dims shape P req c) a dir i = some u →
        walkRecAt fam (blockExtent dims shape P req c) a dir' i' = some v →
        u.update_extent.disjointWith v.update_extent := by
    intro i i' hne hr hr' dir dir' u v hu hv x hx
    obtain ⟨hxu, hxv⟩ := hx
    have b1 := walkRecAt_overlap_bounds fam dims shape P req hb c a
      (hcoord i hr.1 hr.2) dir hu x hxu
    have b2 := walkRecAt_overlap_bounds fam dims shape P req hb c a
      (hcoord i' hr'.1 hr'.2) dir' hv x hxv
    rcases lt_or_gt_of_ne (show c a + i ≠ c a + i' by omega) with h | h
    · have := hb.mono a (c a + i + 1) (c a + i') (by omega)
      omega
    · have := hb.mono a (c a + i' + 1) (c a + i) (by omega)
      omega
  have hca := hc a
  have hccoord : (blockExtent dims shape P req c).cart_coord = c := rfl
  have hcshape : (blockExtent dims shape P req c).cart_shape = dims := rfl
  have hlo_range : ∀ i ∈ walkSteps (blockExtent dims shape P req c) a 0,
      1 ≤ -i ∧ -i ≤ c a := by
    intro i hi
    unfold walkSteps at hi
    rw [if_pos rfl, hccoord] at hi
    simp only [List.mem_map, List.mem_range] at hi
    obtain ⟨t, ht, rfl⟩ := hi
    have ht2 := Int.lt_toNat.mp ht
    constructor <;> omega
  have hhi_range : ∀ i ∈ walkSteps (blockExtent dims shape P req c) a 1,
      1 ≤ i ∧ i ≤ dims a - c a - 1 := by
    intro i hi
    unfold walkSteps at hi
    rw [if_neg (by decide), hccoord, hcshape] at hi
    simp only [List.mem_map, List.mem_range] at hi
    obtain ⟨t, ht, rfl⟩ := hi
    have ht2 := Int.lt_toNat.mp ht
    constructor <;> omega
  have hpw0 : List.Pairwise (fun i i' : ℤ => i ≠ i')
      (walkSteps (blockExtent dims shape P req c) a 0) := by
    unfold walkSteps
    rw [if_pos rfl]
    refine List.Pairwise.map _ (fun t t' htt => ?_) (List.pairwise_lt_range _)
    omega
  have hpw1 : List.Pairwise (fun i i' : ℤ => i ≠ i')
      (walkSteps (blockExtent dims shape P req c) a 1) := by
    unfold walkSteps
    rw [if_neg (by decide)]
    refine List.Pairwise.map _ (fun t t' htt => ?_) (List.pairwise_lt_range _)
    omega
  refine List.Pairwise.sublist
    (List.Sublist.append
      (walkGo_sublist fam (blockExtent dims shape P req c) a 0 _)
      (walkGo_sublist fam (blockExtent dims shape P req c) a 1 _)) ?_
  rw [List.pairwise_append]
  refine ⟨?_, ?_, ?_⟩
  · rw [List.pairwise_filterMap]
    refine List.Pairwise.imp_of_mem (fun hmi hmi' hne => ?_) hpw0
    intro u hu v hv
    rename_i i i'
    have r1 := hlo_range i hmi
    have r2 := hlo_range i' hmi'
    exact key i i' hne (by omega) (by omega) 0 0 u v
      (Option.mem_def.mp hu) (Option.mem_def.mp hv)
  · rw [List.pairwise_filterMap]
    refine List.Pairwise.imp_of_mem (fun hmi hmi' hne => ?_) hpw1
    intro u hu v hv
    rename_i i i'
    have r1 := hhi_range i hmi
    have r2 := hhi_range i' hmi'
    exact key i i' hne (by omega) (by omega) 1 1 u v
      (Option.mem_def.mp hu) (Option.mem_def.mp hv)
  · intro u hu v hv
    rw [List.mem_filterMap] at hu hv
    obtain ⟨i, hmi, hgu⟩ := hu
    obtain ⟨i', hmi', hgv⟩ := hv
    have r1 := hlo_range i hmi
    have r2 := hhi_range i' hmi'
    exact key i i' (by omega) (by omega) (by omega) 0 1 u v hgu hgv

/-! ### Witnesses for the block-family theorems -/

/-- The 2-D scenario family is a block-partition family: boundary
positions `5·j`, grid `2 × 2`, shape `(10, 10)`. -/
theorem fam2_isBlockFamily :
    IsBlockFamily fam2 (fun _ => 2) (fun _ => 10) (fun _ j => 5 * j) req2 :=
  ⟨by decide,
   fun a j k h => by omega,
   fun a => by norm_num,
   fun a => by norm_num,
   fun a j k h1 h2 h3 => by omega,
   fun c hc => rfl⟩

/-- Witness for C4 (amended): the same-axis records of destination
`(0, 0)` in the 2-D scenario. -/
theorem C4_same_axis_disjoint_witness :
    (∀ i : Fin 2, 0 ≤ (fun _ : Fin 2 => (0 : ℤ)) i
        ∧ (fun _ : Fin 2 => (0 : ℤ)) i < (fun _ : Fin 2 => (2 : ℤ)) i)
    ∧ List.Pairwise (fun u v => u.update_extent.disjointWith v.update_extent)
        (walk fam2 (fam2 (fun _ => 0)) 0 0 ++ walk fam2 (fam2 (fun _ => 0)) 0 1) :=
  ⟨by decide,
   C4_same_axis_disjoint fam2 (fun _ => 2) (fun _ => 10) (fun _ j => 5 * j) req2
     fam2_isBlockFamily (fun _ => 0) (by decide) 0⟩

/-- 1-D family with four unit pieces (shape `(4,)`, grid `(4,)`,
requested halo `0`): all pieces non-empty. -/
def fam3 : (Fin 1 → ℤ) → DecompExtent 1 :=
  blockExtent (fun _ => 4) (fun _ => 4) (fun _ j => j) (fun _ _ => 0)

theorem fam3_isBlockFamily :
    IsBlockFamily fam3 (fun _ => 4) (fun _ => 4) (fun _ j => j) (fun _ _ => 0) :=
  ⟨fun _ _ => le_refl 0, fun a j k h => h, fun a => rfl, fun a => rfl,
   fun a j k h1 h2 h3 => by omega, fun c hc => rfl⟩

/-- Witness for C7 (amended): in the unit-piece family, the zero halo
makes the nearest HI overlap of coordinate `0` absent, and the theorem
yields absence for the neighbour two steps away. -/
theorem C7_short_circuit_nonempty_pieces_witness :
    (calc_halo_intersection (fam3 (fun _ => 0))
        (fam3 (updAt (fun _ => 0) 0 (0 + (if (1 : Fin 2) = 0 then (-1 : ℤ) else 1)))) 0 1
      = none)
    ∧ calc_halo_intersection (fam3 (fun _ => 0))
        (fam3 (updAt (fun _ => 0) 0 (0 + (if (1 : Fin 2) = 0 then (-1 : ℤ) else 1) * 2))) 0 1
      = none :=
  ⟨oeqv_iff.mp (by decide),
   C7_short_circuit_nonempty_pieces fam3 (fun _ => 4) (fun _ => 4) (fun _ j => j)
     (fun _ _ => 0) fam3_isBlockFamily (fun _ => 0) (by decide) 0
     (fun j h1 h2 => by show j < j + 1; omega) 1 2 (by norm_num)
     (by constructor <;> decide) (oeqv_iff.mp (by decide))⟩

/-! ## The distribution module: `HaloSubExtent` clamping, `LocaleExtent`
equality and `Distribution.get_rank`

From `mpi_array/distribution.py`. -/

/-- `GlobaleExtent` (distribution.py lines 537-543): a halo indexing
extent denoting the whole array (the core always constructs it with
zero halo, but the clamp reads its with-halo bounds). -/
structure GlobaleExtent (n : ℕ) where
  start : Fin n → ℤ
  stop : Fin n → ℤ
  halo : Fin n → Fin 2 → ℤ

/-- Globale start index including halo. -/
def GlobaleExtent.start_h {n : ℕ} (g : GlobaleExtent n) : Fin n → ℤ :=
  fun a => g.start a - g.halo a 0

/-- Globale stop index including halo. -/
def GlobaleExtent.stop_h {n : ℕ} (g : GlobaleExtent n) : Fin n → ℤ :=
  fun a => g.stop a + g.halo a 1

/-- The halo clamp performed by `HaloSubExtent.__init__`
(distribution.py lines 580-601):
`max(0, min(requested, distance to the globale with-halo boundary))`
per axis and side. -/
def haloSubClamp {n : ℕ} (globale_extent : GlobaleExtent n)
    (start stop : Fin n → ℤ) (req : Fin n → Fin 2 → ℤ) : Fin n → Fin 2 → ℤ :=
  fun a s =>
    max 0 (if s = 0 then min (start a - globale_extent.start_h a) (req a 0)
           else min (globale_extent.stop_h a - stop a) (req a 1))

/-- `LocaleExtent` (distribution.py lines 604-652): a `HaloSubExtent`
plus the `rank` and `inter_locale_rank` identity fields. -/
structure LocaleExtent (n : ℕ) where
  start : Fin n → ℤ
  stop : Fin n → ℤ
  halo : Fin n → Fin 2 → ℤ
  rank : ℤ
  inter_locale_rank : ℤ

/-- `LocaleExtent.__init__`: stores the ranks and clamps the requested
halo against the globale extent (via `HaloSubExtent.__init__`). -/
def LocaleExtent.make {n : ℕ} (rank inter_locale_rank : ℤ)
    (globale_extent : GlobaleExtent n) (start stop : Fin n → ℤ)
    (req : Fin n → Fin 2 → ℤ) : LocaleExtent n :=
  { start := start
    stop := stop
    halo := haloSubClamp globale_extent start stop req
    rank := rank
    inter_locale_rank := inter_locale_rank }

/-- Locale start index including halo. -/
def LocaleExtent.start_h {n : ℕ} (L : LocaleExtent n) : Fin n → ℤ :=
  fun a => L.start a - L.halo a 0

/-- Locale stop index including halo. -/
def LocaleExtent.stop_h {n : ℕ} (L : LocaleExtent n) : Fin n → ℤ :=
  fun a => L.stop a + L.halo a 1

/-- The interior box of a `LocaleExtent`. -/
def LocaleExtent.interior {n : ℕ} (L : LocaleExtent n) : IndexingExtent n :=
  { start := L.start, stop := L.stop }

/-- C6: a `HaloSubExtent`/`LocaleExtent` constructed over a globale
extent with its interior inside the globale with-halo box stores a
componentwise non-negative halo and satisfies
`G.start_h ≤ L.start_h` and `L.stop_h ≤ G.stop_h` componentwise (with a
zero-halo globale these are `G.start_n`/`G.stop_n`): the locale halo
never crosses the globale boundary. -/
theorem C6_halo_clamp {n : ℕ} (rank inter_locale_rank : ℤ)
    (g : GlobaleExtent n) (start stop : Fin n → ℤ) (req : Fin n → Fin 2 → ℤ)
    (hin : ∀ i, g.start_h i ≤ start i ∧ stop i ≤ g.stop_h i) :
    (∀ i s, 0 ≤ (LocaleExtent.make rank inter_locale_rank g start stop req).halo i s)
    ∧ (∀ i, g.start_h i
        ≤ (LocaleExtent.make rank inter_locale_rank g start stop req).start_h i)
    ∧ (∀ i, (LocaleExtent.make rank inter_locale_rank g start stop req).stop_h i
        ≤ g.stop_h i) := by
  refine ⟨fun i s => le_max_left 0 _, fun i => ?_, fun i => ?_⟩
  · have h := (hin i).1
    show start i - haloSubClamp g start stop req i 0 ≥ _
    unfold haloSubClamp
    rw [if_pos rfl]
    omega
  · have h := (hin i).2
    show stop i + haloSubClamp g start stop req i 1 ≤ _
    unfold haloSubClamp
    rw [if_neg (by decide)]
    omega

/-- Concrete globale extent `[0, 10)` with zero halo. -/
def g10 : GlobaleExtent 1 :=
  { start := fun _ => 0, stop := fun _ => 10, halo := fun _ _ => 0 }

/-- Witness for C6: the clamp evaluated for `[2, 5)` inside `[0, 10)`
with requested halo `7` on both sides. -/
theorem C6_halo_clamp_witness :
    (∀ i, g10.start_h i ≤ (fun _ : Fin 1 => (2 : ℤ)) i
        ∧ (fun _ : Fin 1 => (5 : ℤ)) i ≤ g10.stop_h i)
    ∧ (∀ i s, 0 ≤ (LocaleExtent.make 0 0 g10 (fun _ => 2) (fun _ => 5)
        (fun _ _ => 7)).halo i s) :=
  ⟨by decide,
   (C6_halo_clamp 0 0 g10 (fun _ => 2) (fun _ => 5) (fun _ _ => 7) (by decide)).1⟩

/-- `LocaleExtent.__eq__` (distribution.py lines 654-665): the chain
`HaloSubExtent.__eq__` → `IndexingExtent.__eq__` compares only `_beg`
and `_end` (indexing.py lines 64-68) — the halo matrix is **not**
compared — and then the two ranks are compared. -/
def localeExtentEq {n : ℕ} (a b : LocaleExtent n) : Prop :=
  ((∀ i, a.start i = b.start i) ∧ (∀ i, a.stop i = b.stop i))
  ∧ a.rank = b.rank ∧ a.inter_locale_rank = b.inter_locale_rank

instance {n : ℕ} (a b : LocaleExtent n) : Decidable (localeExtentEq a b) :=
  inferInstanceAs (Decidable (_ ∧ _))

/-- Locale extent `[2, 5)` in `[0, 10)` with requested halo `0`. -/
def locA : LocaleExtent 1 :=
  LocaleExtent.make 0 0 g10 (fun _ => 2) (fun _ => 5) (fun _ _ => 0)

/-- Locale extent `[2, 5)` in `[0, 10)` with requested halo `1`
(clamped halo `[[1, 1]]`, different from `locA`'s `[[0, 0]]`). -/
def locB : LocaleExtent 1 :=
  LocaleExtent.make 0 0 g10 (fun _ => 2) (fun _ => 5) (fun _ _ => 1)

/-- C9 counterexample: `locA` and `locB` differ only in their halo
matrices, yet `LocaleExtent.__eq__` reports them equal — the halo is
not part of the comparison. -/
theorem C9_eq_ignores_halo_counterexample :
    localeExtentEq locA locB ∧ ¬ (∀ i s, locA.halo i s = locB.halo i s) := by
  constructor
  · decide
  · intro h
    have := h 0 0
    revert this
    decide

/-- C9 (amended): `A == B` holds iff `A` and `B` have the same interior
box, the same `rank` and the same `inter_locale_rank`; the halo matrix
plays no part in the comparison. -/
theorem C9_eq_iff {n : ℕ} (A B : LocaleExtent n) :
    localeExtentEq A B
      ↔ (A.interior = B.interior ∧ A.rank = B.rank
          ∧ A.inter_locale_rank = B.inter_locale_rank) := by
  unfold localeExtentEq LocaleExtent.interior
  constructor
  · rintro ⟨⟨h1, h2⟩, h3, h4⟩
    exact ⟨IndexingExtent.ext_axes h1 h2, h3, h4⟩
  · rintro ⟨h, h3, h4⟩
    rw [IndexingExtent.mk.injEq] at h
    exact ⟨⟨fun i => congrFun h.1 i, fun i => congrFun h.2 i⟩, h3, h4⟩

/-- The `mpi4py` sentinel `MPI.UNDEFINED` (the MPICH / Open MPI value). -/
def MPI_UNDEFINED : ℤ := -32766

/-- `Distribution.get_rank` (distribution.py lines 912-918): the
`MPI.UNDEFINED` sentinel when no `inter_locale_rank_to_rank` map was
supplied, otherwise a lookup in the map. -/
def get_rank (inter_locale_rank_to_rank : Option (ℕ → ℤ))
    (inter_locale_rank : ℕ) : ℤ :=
  match inter_locale_rank_to_rank with
  | none => MPI_UNDEFINED
  | some m => m inter_locale_rank

/-- The locale-extent list built by `Distribution.__init__`
(distribution.py lines 907-910): element `i` is created by
`create_locale_extent(i, …)` (lines 960-1004), which passes
`rank = get_rank(i)` and `inter_locale_rank = i` to the
`LocaleExtent` constructor together with the clamped halo. -/
def distributionLocaleExtents {n : ℕ} (inter_locale_rank_to_rank : Option (ℕ → ℤ))
    (globale_extent : GlobaleExtent n) (locale_extents : List (IndexingExtent n))
    (halo : Fin n → Fin 2 → ℤ) : List (LocaleExtent n) :=
  locale_extents.mapIdx (fun i e =>
    LocaleExtent.make (get_rank inter_locale_rank_to_rank i) (i : ℤ)
      globale_extent e.start e.stop halo)

/-- C10: when a `Distribution` is built with
`inter_locale_rank_to_rank = None` (the default), `get_rank` returns the
`MPI.UNDEFINED` sentinel for every inter-locale rank, and every locale
extent it creates carries `rank = MPI.UNDEFINED` while still carrying
the correct `inter_locale_rank`. -/
theorem C10_get_rank_undefined {n : ℕ}
    (inter_locale_rank_to_rank : Option (ℕ → ℤ))
    (hmap : inter_locale_rank_to_rank = none) (r : ℕ)
    (globale_extent : GlobaleExtent n) (locale_extents : List (IndexingExtent n))
    (halo : Fin n → Fin 2 → ℤ) (i : ℕ)
    (hi : i < (distributionLocaleExtents inter_locale_rank_to_rank globale_extent
        locale_extents halo).length) :
    get_rank inter_locale_rank_to_rank r = MPI_UNDEFINED
    ∧ ((distributionLocaleExtents inter_locale_rank_to_rank globale_extent
        locale_extents halo).get ⟨i, hi⟩).rank = MPI_UNDEFINED
    ∧ ((distributionLocaleExtents inter_locale_rank_to_rank globale_extent
        locale_extents halo).get ⟨i, hi⟩).inter_locale_rank = (i : ℤ) := by
  subst hmap
  refine ⟨rfl, ?_, ?_⟩ <;>
    simp [distributionLocaleExtents, List.getElem_mapIdx, LocaleExtent.make, get_rank]

/-- Witness for C10: a one-element distribution without a rank map. -/
theorem C10_get_rank_undefined_witness :
    ((none : Option (ℕ → ℤ)) = none
      ∧ 0 < (distributionLocaleExtents (none : Option (ℕ → ℤ)) g10 [c2self]
          (fun _ _ => 0)).length)
    ∧ get_rank none 5 = MPI_UNDEFINED :=
  ⟨⟨rfl, by decide⟩,
   (C10_get_rank_undefined none rfl 5 g10 [c2self] (fun _ _ => 0) 0 (by decide)).1⟩
end MpiArray
